import Mathlib

/-!
# Monitor plugin: bounded transaction cache with hash and bundle indices

A shallow embedding of `plugins/monitor/monitor.go`.

* Go pointers `*wsTransaction` are addresses into an explicit heap (a list of
  records; allocation appends), so that the aliasing between the ring buffer and
  `txPointerMap` is visible.
* `container/ring` is a list of slots together with the position of the element
  the `*Ring` pointer designates; two `*Ring` pointers into the same ring are
  equal exactly when their positions are equal.
* Go maps are association lists; a `map[Hash]struct{}` is a list of keys.
* `int64` arithmetic is integer arithmetic followed by `wrapInt64`.
* Handlers return the new state together with the effects they emit
  (broadcasts and worker pool submissions), in order.
-/

namespace Monitor

/-! ## Machine integers -/

/-- Two's complement wrap-around of an integer into the `int64` range. -/
def wrapInt64 (x : Int) : Int := (x + 2 ^ 63) % 2 ^ 64 - 2 ^ 63

/-! ## Records and payloads -/

/-- The record type `wsTransaction`. -/
structure wsTransaction where
  Hash : String
  Address : String
  Value : Int
  Tag : String
  Confirmed : Bool
  Reattached : Bool
  Bundle : String
  ReceivedAt : Int
  ConfTime : Int
  Milestone : String
deriving DecidableEq, Repr, Inhabited

/-- The payload `wsReattachment`. -/
structure wsReattachment where
  Hash : String
deriving DecidableEq, Repr

/-- The payload `wsUpdate`. -/
structure wsUpdate where
  Hash : String
  ConfTime : Int
deriving DecidableEq, Repr

/-- The payload `wsNewMile`. -/
structure wsNewMile where
  Hash : String
  Milestone : String
  ConfTime : Int
deriving DecidableEq, Repr

/-- The response body `getRecentTransactions`, with the pointers of `TXHistory`
dereferenced as the JSON encoder does. -/
structure getRecentTransactions where
  TXHistory : List wsTransaction
deriving DecidableEq, Repr

/-- The fields of the ledger transaction (`iotaTx`) that the handlers read. -/
structure Tx where
  Hash : String
  Address : String
  Value : Int
  Tag : String
  Bundle : String
  CurrentIndex : Nat
  Timestamp : Int
deriving DecidableEq, Repr

/-- What the handlers read of a `tangle.Bundle`: its tail and its transactions. -/
structure Bundle where
  tail : Tx
  transactions : List Tx
deriving DecidableEq, Repr

/-- Effects of a handler, in the order they are performed:
`BroadcastToRoom("broadcast", event, payload)` for the four events and
`reattachmentWorkerPool.TrySubmit(bundle)`. -/
inductive Effect where
  | newTX (payload : wsTransaction)
  | update (payload : wsUpdate)
  | updateMilestone (payload : wsNewMile)
  | updateReattach (payload : wsReattachment)
  | trySubmit (bundle : String)
deriving DecidableEq, Repr

/-! ## Go maps as association lists -/

/-- Map read `m[k]` with the comma-ok result as an option. -/
def mapGet {β : Type} : List (String × β) → String → Option β
  | [], _ => none
  | (k', v) :: t, k => if k' = k then some v else mapGet t k

/-- Map write `m[k] = v`. -/
def mapSet {β : Type} : List (String × β) → String → β → List (String × β)
  | [], k, v => [(k, v)]
  | (k', v') :: t, k, v => if k' = k then (k, v) :: t else (k', v') :: mapSet t k v

/-- Map removal `delete(m, k)`. -/
def mapDelete {β : Type} (m : List (String × β)) (k : String) : List (String × β) :=
  m.filter (fun e => decide (e.1 ≠ k))

/-- Key list of a map. -/
def mapKeys {β : Type} (m : List (String × β)) : List String := m.map Prod.fst

/-- Insertion into a `map[Hash]struct{}`: `m[h] = struct{}{}`. -/
def setAdd (m : List String) (h : String) : List String :=
  if h ∈ m then m else m ++ [h]

/-- Removal from a `map[Hash]struct{}`: `delete(m, h)`. -/
def setDelete (m : List String) (h : String) : List String :=
  m.filter (fun x => decide (x ≠ h))

/-! ## container/ring -/

/-- A `*ring.Ring`: the slots of the ring and the position of the designated element. -/
structure Ring where
  vals : List (Option Nat)
  pos : Nat
deriving DecidableEq, Repr

namespace Ring

/-- Model of `ring.New(n)`: `n` elements with nil values. -/
def New (n : Nat) : Ring := ⟨List.replicate n none, 0⟩

/-- Model of `r.Next()`. -/
def Next (r : Ring) : Ring :=
  ⟨r.vals, if r.pos + 1 < r.vals.length then r.pos + 1 else 0⟩

/-- Model of `r.Prev()`. -/
def Prev (r : Ring) : Ring :=
  ⟨r.vals, if r.pos = 0 then r.vals.length - 1 else r.pos - 1⟩

/-- Model of the field read `r.Value` (`none` is nil). -/
def Value (r : Ring) : Option Nat := r.vals.getD r.pos none

/-- Model of the field write `r.Value = p`. -/
def setValue (r : Ring) (p : Nat) : Ring := ⟨r.vals.set r.pos (some p), r.pos⟩

end Ring

/-! ## Global state -/

/-- The package level variables, with the heap of `wsTransaction` records. -/
structure State where
  heap : List wsTransaction
  txRingBuffer : Ring
  txPointerMap : List (String × Nat)
  bundleTransactionsMap : List (String × List String)
deriving DecidableEq, Repr

/-- Pointer dereference. Go pointers never dangle; an address that was never
allocated reads the default record here, and the invariant `Inv.valid` shows that
reachable states only hold allocated addresses. -/
def deref (heap : List wsTransaction) (p : Nat) : wsTransaction := heap.getD p default

/-- In-place update of the record a pointer designates. -/
def store (heap : List wsTransaction) (p : Nat) (f : wsTransaction → wsTransaction) :
    List wsTransaction :=
  heap.set p (f (deref heap p))

/-- Model of `initRingBuffer`, with `TX_BUFFER_SIZE` as a parameter. -/
def initRingBuffer (size : Nat) : State :=
  { heap := []
    txRingBuffer := Ring.New size
    txPointerMap := []
    bundleTransactionsMap := [] }

/-- The constant of the source. -/
def TX_BUFFER_SIZE : Nat := 50000

/-! ## Handlers -/

/-- The record built at the start of `onNewTx`; `now` is `time.Now().Unix()`. -/
def newRecord (iotaTx : Tx) (now : Int) : wsTransaction :=
  { Hash := iotaTx.Hash
    Address := iotaTx.Address
    Value := iotaTx.Value
    Tag := iotaTx.Tag
    Confirmed := false
    Reattached := false
    Bundle := iotaTx.Bundle
    ReceivedAt := wrapInt64 (now * 1000)
    ConfTime := 1111111111111
    Milestone := "f" }

/-- The block "Delete old element from map" of `onNewTx`, on the Bundle Index. -/
def evictBundle (bm : List (String × List String)) (oldTx : wsTransaction) :
    List (String × List String) :=
  match mapGet bm oldTx.Bundle with
  | some members =>
    let members1 := setDelete members oldTx.Hash
    if members1.length = 0 then mapDelete bm oldTx.Bundle
    else mapSet bm oldTx.Bundle members1
  | none => bm

/-- The block "Add new element to map" of `onNewTx`, on the Bundle Index. -/
def addBundle (bm : List (String × List String)) (bundle hash : String) :
    List (String × List String) :=
  let bm1 := match mapGet bm bundle with
    | some _ => bm
    | none => mapSet bm bundle []
  match mapGet bm1 bundle with
  | some members => mapSet bm1 bundle (setAdd members hash)
  | none => bm1

/-- Model of `onNewTx`. -/
def onNewTx (s : State) (iotaTx : Tx) (now : Int) : State × List Effect :=
  let wsTx := s.heap.length
  let heap1 := s.heap ++ [newRecord iotaTx now]
  match mapGet s.txPointerMap iotaTx.Hash with
  | some _ => ({ s with heap := heap1 }, [])
  | none =>
    let pm1 := match s.txRingBuffer.Value with
      | some oldTx => mapDelete s.txPointerMap (deref heap1 oldTx).Hash
      | none => s.txPointerMap
    let bm1 := match s.txRingBuffer.Value with
      | some oldTx => evictBundle s.bundleTransactionsMap (deref heap1 oldTx)
      | none => s.bundleTransactionsMap
    let ring1 := (s.txRingBuffer.setValue wsTx).Next
    let pm2 := mapSet pm1 (deref heap1 wsTx).Hash wsTx
    let bm2 := addBundle bm1 (deref heap1 wsTx).Bundle (deref heap1 wsTx).Hash
    ({ heap := heap1, txRingBuffer := ring1, txPointerMap := pm2,
       bundleTransactionsMap := bm2 },
     [Effect.newTX (deref heap1 wsTx)])

/-- Model of `onConfirmedTx`. The argument `ledgerChanges` stands for the ledger
engine: `none` when `GetBundleOfTailTransaction` returns nil, and otherwise the
length of the map returned by `GetLedgerChanges`. -/
def onConfirmedTx (s : State) (iotaTx : Tx) (msIndex : Nat) (confTime : Int)
    (ledgerChanges : Option Nat) : State × List Effect :=
  let _ := msIndex
  let submit : List Effect :=
    if iotaTx.CurrentIndex = 0 then
      match ledgerChanges with
      | some n => if n > 0 then [Effect.trySubmit iotaTx.Bundle] else []
      | none => []
    else []
  let heap1 := match mapGet s.txPointerMap iotaTx.Hash with
    | some wsTx =>
      store (store s.heap wsTx (fun r => { r with Confirmed := true })) wsTx
        (fun r => { r with ConfTime := wrapInt64 (confTime * 1000) })
    | none => s.heap
  ({ s with heap := heap1 },
   submit ++ [Effect.update { Hash := iotaTx.Hash, ConfTime := wrapInt64 (confTime * 1000) }])

/-- The first loop of `onNewMilestone`. -/
def milestoneLoop (pm : List (String × Nat)) (confTime : Int) :
    List Tx → List wsTransaction → List wsTransaction
  | [], heap => heap
  | tx :: rest, heap =>
    match mapGet pm tx.Hash with
    | some wsTx =>
      milestoneLoop pm confTime rest
        (store (store (store heap wsTx (fun r => { r with Confirmed := true })) wsTx
          (fun r => { r with Milestone := "t" })) wsTx
          (fun r => { r with ConfTime := confTime }))
    | none => milestoneLoop pm confTime rest heap

/-- Model of `onNewMilestone`. -/
def onNewMilestone (s : State) (bundle : Bundle) : State × List Effect :=
  let confTime := wrapInt64 (bundle.tail.Timestamp * 1000)
  let transactions := bundle.transactions
  ({ s with heap := milestoneLoop s.txPointerMap confTime transactions s.heap },
   transactions.map (fun tx =>
     Effect.updateMilestone { Hash := tx.Hash, Milestone := "t", ConfTime := confTime }))

/-- The loop of `onReattachment` over the members of a bundle, in the order the
map iteration yields them; returns the heap and the collected updates. -/
def reattachLoop (pm : List (String × Nat)) :
    List String → List wsTransaction → List wsReattachment →
      List wsTransaction × List wsReattachment
  | [], heap, updates => (heap, updates)
  | txHash :: rest, heap, updates =>
    match mapGet pm txHash with
    | some wsTx =>
      reattachLoop pm rest (store heap wsTx (fun r => { r with Reattached := true }))
        (updates ++ [{ Hash := txHash }])
    | none => reattachLoop pm rest heap updates

/-- Model of `onReattachment`. -/
def onReattachment (s : State) (bundleHash : String) : State × List Effect :=
  let res := match mapGet s.bundleTransactionsMap bundleHash with
    | some members => reattachLoop s.txPointerMap members s.heap []
    | none => (s.heap, [])
  ({ s with heap := res.1 }, res.2.map Effect.updateReattach)

/-- The loop of `handleAPI`: `fuel` is the number of iterations left
(`amount - txCount`), `txPointer` the loop variable; returns the pointers
appended to `txs` from this iteration on. -/
def recentLoop (txRingBuffer : Ring) : Nat → Ring → List Nat
  | 0, _ => []
  | fuel + 1, txPointer =>
    let txPointer1 := txPointer.Prev
    if txPointer1.pos = txRingBuffer.pos then []
    else
      match txPointer1.Value with
      | none => []
      | some p => p :: recentLoop txRingBuffer fuel txPointer1

/-- The walk `recent(amount)` of `handleAPI`, as the list of pointers collected. -/
def recentPtrs (s : State) (amount : Int) : List Nat :=
  recentLoop s.txRingBuffer amount.toNat s.txRingBuffer

/-- The walk `recent(amount)` of `handleAPI`, as the records returned. -/
def recent (s : State) (amount : Int) : List wsTransaction :=
  (recentPtrs s amount).map (deref s.heap)

/-- Model of `handleAPI`; `Atoi` stands for `strconv.Atoi` (`none` on error) and
`amountStr` for `c.Query("amount")`. The result is the state, the HTTP status and
the body. -/
def handleAPI (Atoi : String → Option Int) (s : State) (amountStr : String) :
    State × Nat × getRecentTransactions :=
  let amount : Int :=
    if amountStr ≠ "" then
      match Atoi amountStr with
      | some amountParsed => amountParsed
      | none => 15000
    else 15000
  (s, 200, { TXHistory := recent s amount })

/-! ## Reachable states -/

/-- A call of one of the five handlers, with its arguments. -/
inductive Call where
  | newTx (iotaTx : Tx) (now : Int)
  | confirmedTx (iotaTx : Tx) (msIndex : Nat) (confTime : Int) (ledgerChanges : Option Nat)
  | newMilestone (bundle : Bundle)
  | reattachment (bundleHash : String)
  | api (Atoi : String → Option Int) (amountStr : String)

/-- State and effects after one handler call. -/
def step (s : State) : Call → State × List Effect
  | Call.newTx iotaTx now => onNewTx s iotaTx now
  | Call.confirmedTx iotaTx msIndex confTime ledgerChanges =>
    onConfirmedTx s iotaTx msIndex confTime ledgerChanges
  | Call.newMilestone bundle => onNewMilestone s bundle
  | Call.reattachment bundleHash => onReattachment s bundleHash
  | Call.api Atoi amountStr => ((handleAPI Atoi s amountStr).1, [])

/-- The insertion log after one handler call: `onNewTx` appends the pointer it
stores in the ring, unless the transaction is a duplicate. -/
def stepLog (s : State) (log : List Nat) : Call → List Nat
  | Call.newTx iotaTx _ =>
    match mapGet s.txPointerMap iotaTx.Hash with
    | some _ => log
    | none => log ++ [s.heap.length]
  | _ => log

/-- States reachable from `initRingBuffer size` by handler calls, together with
the log of the pointers that `onNewTx` stored in the ring, oldest first. -/
inductive Reach (size : Nat) : State → List Nat → Prop where
  | init : Reach size (initRingBuffer size) []
  | step {s : State} {log : List Nat} (c : Call) :
      Reach size s log → Reach size (step s c).1 (stepLog s log c)

/-- States reachable from the empty cache of the given capacity. -/
def Reachable (size : Nat) (s : State) : Prop := ∃ log, Reach size s log

/-- State after a sequence of handler calls. -/
def run (s : State) (cs : List Call) : State := cs.foldl (fun st c => (step st c).1) s

/-- Insertion log after a sequence of handler calls. -/
def runLog (s : State) (log : List Nat) : List Call → List Nat
  | [] => log
  | c :: cs => runLog (step s c).1 (stepLog s log c) cs

/-- Pointers held by the occupied slots of the ring, in slot order. -/
def occupied (s : State) : List Nat := s.txRingBuffer.vals.filterMap id

/-- Hash of the record a pointer designates. -/
def hashOf (s : State) (p : Nat) : String := (deref s.heap p).Hash

/-- Bundle of the record a pointer designates. -/
def bundleOf (s : State) (p : Nat) : String := (deref s.heap p).Bundle

/-- The cached pointers according to the insertion log: its last `size` entries,
oldest first. -/
def cachedOf (size : Nat) (log : List Nat) : List Nat := log.drop (log.length - size)

/-- The slots of the ring read forward from the designated element, once around. -/
def ringView (r : Ring) : List (Option Nat) := r.vals.drop r.pos ++ r.vals.take r.pos

/-- Membership of a hash in the member set of a bundle key. -/
def bmMem (bm : List (String × List String)) (b h : String) : Prop :=
  ∃ ms, mapGet bm b = some ms ∧ h ∈ ms

/-- State after calling `onNewTx` on each transaction of a list, in order; each
entry pairs the transaction with the clock value read by the call. -/
def insertAll (s : State) (txs : List (Tx × Int)) : State :=
  txs.foldl (fun st e => (onNewTx st e.1 e.2).1) s

/-! ## Example inputs -/

/-- An example ledger transaction with the given hash and bundle. -/
def exTx (hash bundle : String) : Tx :=
  { Hash := hash, Address := "ADDR", Value := 5, Tag := "TAG", Bundle := bundle,
    CurrentIndex := 0, Timestamp := 7 }

/-- Five `onNewTx` calls with the distinct hashes `T1` .. `T5`. -/
def exCalls : List Call :=
  [Call.newTx (exTx "T1" "B1") 1, Call.newTx (exTx "T2" "B1") 2, Call.newTx (exTx "T3" "B2") 3,
   Call.newTx (exTx "T4" "B2") 4, Call.newTx (exTx "T5" "B3") 5]

/-- The cache of capacity 3 after the five calls of `exCalls`. -/
def exState : State := run (initRingBuffer 3) exCalls

/-- The calls of `exCalls` followed by `onNewTx` of `T6`. -/
def exCalls6 : List Call := exCalls ++ [Call.newTx (exTx "T6" "B3") 6]

/-- The cache of capacity 3 after the six calls of `exCalls6`: it holds `T4`
(bundle `B2`, at the write cursor), `T5` and `T6` (bundle `B3`). -/
def exState6 : State := run (initRingBuffer 3) exCalls6

/-- The calls of `exCalls` followed by a confirmation of `T4`. -/
def exCallsConf : List Call := exCalls ++ [Call.confirmedTx (exTx "T4" "B2") 0 5 none]

/-- The example cache after the confirmation of `T4`. -/
def exStateConf : State := run (initRingBuffer 3) exCallsConf

/-- Whether an effect is a `BroadcastToRoom` call (and not a worker pool
submission). -/
def Effect.isBroadcast : Effect → Bool
  | Effect.trySubmit _ => false
  | _ => true

/-- The example cache after `onNewTx` of `T1` and `T2` only (capacity 3). -/
def exState2 : State :=
  run (initRingBuffer 3) [Call.newTx (exTx "T1" "B1") 1, Call.newTx (exTx "T2" "B1") 2]

/-- A milestone bundle with transactions `T1`, `T2` and tail timestamp 5, so that
the batch confirmation time is 5000. -/
def exBundle : Bundle :=
  { tail := { exTx "T1" "B1" with Timestamp := 5 }
    transactions := [exTx "T1" "B1", exTx "T2" "B1"] }

/-- The three writes of the first loop of `onNewMilestone` to one record. -/
def markMilestone (confTime : Int) (r : wsTransaction) : wsTransaction :=
  { r with Confirmed := true, Milestone := "t", ConfTime := confTime }

/-- The write of the loop of `onReattachment` to one record. -/
def markReattached (r : wsTransaction) : wsTransaction :=
  { r with Reattached := true }

/-- The cache of capacity 3 after `onNewTx` of `T1` with bundle `B`. -/
def exStateB : State := run (initRingBuffer 3) [Call.newTx (exTx "T1" "B") 1]

/-- A stand-in for `strconv.Atoi` on three sample strings: `"7"` parses, anything
else is an error. -/
def exAtoi (str : String) : Option Int := if str = "7" then some 7 else none

/-- The state-machine property of one record: milestone confirmation implies
confirmation. -/
def MilestoneOk (r : wsTransaction) : Prop := r.Milestone = "t" → r.Confirmed = true

/-- The example cache after the milestone bundle `exBundle`. -/
def exStateMs : State :=
  run (initRingBuffer 3)
    [Call.newTx (exTx "T1" "B1") 1, Call.newTx (exTx "T2" "B1") 2, Call.newMilestone exBundle]

/-! ## Lock operations of the handlers -/

/-- The operations of a handler that matter for the lock discipline, in program
order: `Lock`/`Unlock` of `txRingBufferLock` and of `broadcastLock`, a read or
write of `txRingBuffer`, `txPointerMap` or `bundleTransactionsMap`, and the
performing of an effect (`BroadcastToRoom` or `TrySubmit`). -/
inductive Op where
  | lockState
  | unlockState
  | lockBroadcast
  | unlockBroadcast
  | access
  | effect (e : Effect)
deriving DecidableEq, Repr

/-- Which of the two mutexes the running handler holds. -/
structure Locks where
  state : Bool
  broadcast : Bool
deriving DecidableEq, Repr

/-- One operation under the discipline; `none` is a violation: a mutex is locked
while either mutex is held, a mutex is unlocked that is not held, the shared
state is accessed without the state lock, or a broadcast is sent without the
broadcast lock or with the state lock. -/
def lockStep (l : Locks) : Op → Option Locks
  | Op.lockState => if l.state || l.broadcast then none else some { l with state := true }
  | Op.unlockState => if l.state then some { l with state := false } else none
  | Op.lockBroadcast =>
    if l.state || l.broadcast then none else some { l with broadcast := true }
  | Op.unlockBroadcast => if l.broadcast then some { l with broadcast := false } else none
  | Op.access => if l.state then some l else none
  | Op.effect e =>
    if e.isBroadcast then (if l.broadcast && !l.state then some l else none) else some l

/-- A sequence of operations under the discipline. -/
def lockRun : Locks → List Op → Option Locks
  | l, [] => some l
  | l, op :: ops =>
    match lockStep l op with
    | some l1 => lockRun l1 ops
    | none => none

/-- The effects performed by a sequence of operations, in order. -/
def effectsOf : List Op → List Effect
  | [] => []
  | Op.effect e :: ops => e :: effectsOf ops
  | _ :: ops => effectsOf ops

/-- Operations of `onNewTx` (source lines 121 to 156). -/
def onNewTxOps (s : State) (iotaTx : Tx) (now : Int) : List Op :=
  -- txRingBufferLock.Lock(); txPointerMap[iotaTx.Hash]
  [Op.lockState, Op.access] ++
  (match mapGet s.txPointerMap iotaTx.Hash with
   | some _ =>
     -- txRingBufferLock.Unlock(); return
     [Op.unlockState]
   | none =>
     -- txRingBuffer.Value != nil
     [Op.access] ++
     (match s.txRingBuffer.Value with
      | some _ =>
        -- oldTx; bundleTransactionsMap lookup, delete, len, delete; delete(txPointerMap, ..)
        [Op.access, Op.access, Op.access, Op.access, Op.access, Op.access]
      | none => []) ++
     -- txRingBuffer.Value = wsTx; Next(); txPointerMap write; bundleTransactionsMap writes
     [Op.access, Op.access, Op.access, Op.access, Op.access,
      -- txRingBufferLock.Unlock(); broadcastLock.Lock()
      Op.unlockState, Op.lockBroadcast,
      -- BroadcastToRoom("broadcast", "newTX", wsTx)
      Op.effect (Effect.newTX (newRecord iotaTx now)),
      -- broadcastLock.Unlock()
      Op.unlockBroadcast])

/-- Operations of `onConfirmedTx` (source lines 165 to 191). -/
def onConfirmedTxOps (iotaTx : Tx) (confTime : Int) (ledgerChanges : Option Nat) : List Op :=
  -- reattachmentWorkerPool.TrySubmit(iotaTx.Bundle)
  (if iotaTx.CurrentIndex = 0 then
    match ledgerChanges with
    | some n => if n > 0 then [Op.effect (Effect.trySubmit iotaTx.Bundle)] else []
    | none => []
   else []) ++
  -- txRingBufferLock.Lock(); txPointerMap[iotaTx.Hash]; txRingBufferLock.Unlock()
  [Op.lockState, Op.access, Op.unlockState,
   -- broadcastLock.Lock(); BroadcastToRoom("broadcast", "update", update)
   Op.lockBroadcast,
   Op.effect (Effect.update { Hash := iotaTx.Hash, ConfTime := wrapInt64 (confTime * 1000) }),
   -- broadcastLock.Unlock()
   Op.unlockBroadcast]

/-- Operations of `onNewMilestone` (source lines 202 to 222). -/
def onNewMilestoneOps (bundle : Bundle) : List Op :=
  -- txRingBufferLock.Lock(); one txPointerMap lookup per transaction
  [Op.lockState] ++ bundle.transactions.map (fun _ => Op.access) ++
  -- txRingBufferLock.Unlock(); broadcastLock.Lock()
  [Op.unlockState, Op.lockBroadcast] ++
  -- one BroadcastToRoom("broadcast", "updateMilestone", update) per transaction
  bundle.transactions.map (fun tx => Op.effect (Effect.updateMilestone
    { Hash := tx.Hash, Milestone := "t",
      ConfTime := wrapInt64 (bundle.tail.Timestamp * 1000) })) ++
  -- broadcastLock.Unlock()
  [Op.unlockBroadcast]

/-- Operations of `onReattachment` (source lines 231 to 248). -/
def onReattachmentOps (s : State) (bundleHash : String) : List Op :=
  -- txRingBufferLock.Lock(); bundleTransactionsMap[bundleHash]
  [Op.lockState, Op.access] ++
  -- range over the member set, one txPointerMap lookup per member
  (match mapGet s.bundleTransactionsMap bundleHash with
   | some members => members.map (fun _ => Op.access)
   | none => []) ++
  -- txRingBufferLock.Unlock(); broadcastLock.Lock()
  [Op.unlockState, Op.lockBroadcast] ++
  -- one BroadcastToRoom("broadcast", "updateReattach", update) per collected update
  (match mapGet s.bundleTransactionsMap bundleHash with
   | some members =>
     (reattachLoop s.txPointerMap members s.heap []).2.map
       (fun u => Op.effect (Effect.updateReattach u))
   | none => []) ++
  -- broadcastLock.Unlock()
  [Op.unlockBroadcast]

/-! ## Predicates used in the proofs -/

/-- The Hash Index `pm` and the Bundle Index `bm` describe exactly the cached
pointers `c`, whose hashes and bundles are given by `hf` and `bf`. -/
structure IdxInv (hf bf : Nat → String) (c : List Nat) (pm : List (String × Nat))
    (bm : List (String × List String)) : Prop where
  hashNodup : (c.map hf).Nodup
  pmSpec : ∀ h p, mapGet pm h = some p ↔ (p ∈ c ∧ hf p = h)
  pmKeys : (mapKeys pm).Nodup
  bmSpec : ∀ b h, bmMem bm b h ↔ ∃ p, p ∈ c ∧ hf p = h ∧ bf p = b
  bmKeys : (mapKeys bm).Nodup
  bmNonempty : ∀ b ms, mapGet bm b = some ms → ms ≠ []
  bmNodup : ∀ b ms, mapGet bm b = some ms → ms.Nodup

/-- The record `r1` is the record `r` after handler updates: identity fields are
kept and the three flags only go from unset to set. -/
structure RecLe (r r1 : wsTransaction) : Prop where
  hash : r1.Hash = r.Hash
  address : r1.Address = r.Address
  value : r1.Value = r.Value
  tag : r1.Tag = r.Tag
  bundle : r1.Bundle = r.Bundle
  receivedAt : r1.ReceivedAt = r.ReceivedAt
  confirmed : r.Confirmed = true → r1.Confirmed = true
  milestone : r.Milestone = "t" → r1.Milestone = "t"
  reattached : r.Reattached = true → r1.Reattached = true

/-- The heap `heap1` is the heap `heap` after in-place updates of records. -/
def HeapLe (heap heap1 : List wsTransaction) : Prop :=
  heap1.length = heap.length ∧ ∀ q, RecLe (deref heap q) (deref heap1 q)

/-- Reading a list of slots up to the first nil one, at most `n` of them. -/
def collect : Nat → List (Option Nat) → List Nat
  | 0, _ => []
  | _ + 1, [] => []
  | _ + 1, none :: _ => []
  | n + 1, some p :: t => p :: collect n t

/-- The invariant: the ring read forward from the write cursor holds the empty
slots first and then the cached pointers from oldest to newest, every logged
pointer is allocated, and both indices describe exactly the cached pointers. -/
structure Inv (size : Nat) (s : State) (log : List Nat) : Prop where
  len : s.txRingBuffer.vals.length = size
  pos : s.txRingBuffer.pos < size
  view : ringView s.txRingBuffer =
    List.replicate (size - (cachedOf size log).length) none ++ (cachedOf size log).map some
  valid : ∀ p ∈ log, p < s.heap.length
  logNodup : log.Nodup
  idx : IdxInv (fun p => (deref s.heap p).Hash) (fun p => (deref s.heap p).Bundle)
    (cachedOf size log) s.txPointerMap s.bundleTransactionsMap

/-! ## Lemmas on maps -/

theorem mapGet_mapSet {β : Type} (m : List (String × β)) (k k' : String) (v : β) :
    mapGet (mapSet m k v) k' = if k = k' then some v else mapGet m k' := by
  induction m with
  | nil => simp [mapSet, mapGet]
  | cons e t ih =>
    obtain ⟨a, b⟩ := e
    by_cases h : a = k
    · subst h
      by_cases h2 : a = k' <;> simp [mapSet, mapGet, h2]
    · by_cases h2 : a = k'
      · subst h2
        have h3 : ¬ k = a := fun e => h e.symm
        simp [mapSet, mapGet, h, h3]
      · simp [mapSet, mapGet, h, h2, ih]

theorem mapGet_mapDelete {β : Type} (m : List (String × β)) (k k' : String) :
    mapGet (mapDelete m k) k' = if k = k' then none else mapGet m k' := by
  induction m with
  | nil => simp [mapDelete, mapGet]
  | cons e t ih =>
    obtain ⟨a, b⟩ := e
    simp only [mapDelete] at ih ⊢
    by_cases h : a = k
    · subst h
      rw [List.filter_cons_of_neg (by simp), ih]
      by_cases h2 : a = k' <;> simp [mapGet, h2]
    · rw [List.filter_cons_of_pos (by simpa using h)]
      have h3 : ¬ k = a := fun e => h e.symm
      by_cases h2 : a = k'
      · subst h2
        simp [mapGet, h3]
      · simp only [mapGet, h2, if_false, ih]

theorem mapGet_eq_none_iff {β : Type} (m : List (String × β)) (k : String) :
    mapGet m k = none ↔ k ∉ mapKeys m := by
  induction m with
  | nil => simp [mapGet, mapKeys]
  | cons e t ih =>
    obtain ⟨a, b⟩ := e
    by_cases h : a = k
    · simp [mapGet, mapKeys, h]
    · have h3 : ¬ k = a := fun e => h e.symm
      simpa [mapGet, mapKeys, h, h3] using ih

theorem mem_mapKeys_iff {β : Type} (m : List (String × β)) (k : String) :
    k ∈ mapKeys m ↔ ∃ v, mapGet m k = some v := by
  rw [← Option.isSome_iff_exists, ← Option.ne_none_iff_isSome, Ne, mapGet_eq_none_iff]
  simp

theorem mapKeys_mapSet {β : Type} (m : List (String × β)) (k : String) (v : β) :
    mapKeys (mapSet m k v) = if k ∈ mapKeys m then mapKeys m else mapKeys m ++ [k] := by
  induction m with
  | nil => simp [mapSet, mapKeys]
  | cons e t ih =>
    obtain ⟨a, b⟩ := e
    unfold mapKeys at ih ⊢
    by_cases h : a = k
    · subst h
      simp [mapSet]
    · have h3 : ¬ k = a := fun e => h e.symm
      simp only [mapSet, h, if_false, List.map_cons, ih, List.mem_cons, h3, false_or]
      split <;> simp

theorem mapKeys_mapDelete {β : Type} (m : List (String × β)) (k : String) :
    mapKeys (mapDelete m k) = (mapKeys m).filter (fun x => decide (x ≠ k)) := by
  induction m with
  | nil => simp [mapDelete, mapKeys]
  | cons e t ih =>
    obtain ⟨a, b⟩ := e
    simp only [mapKeys, mapDelete, List.map_cons] at ih ⊢
    by_cases h : a = k
    · rw [List.filter_cons_of_neg (by simpa using h), List.filter_cons_of_neg (by simpa using h)]
      exact ih
    · rw [List.filter_cons_of_pos (by simpa using h), List.filter_cons_of_pos (by simpa using h),
        List.map_cons, ih]

theorem nodup_mapKeys_mapSet {β : Type} (m : List (String × β)) (k : String) (v : β)
    (h : (mapKeys m).Nodup) : (mapKeys (mapSet m k v)).Nodup := by
  rw [mapKeys_mapSet]
  split
  · exact h
  · rename_i hk
    exact List.Nodup.append h (List.nodup_singleton k) (by simpa using hk)

theorem nodup_mapKeys_mapDelete {β : Type} (m : List (String × β)) (k : String)
    (h : (mapKeys m).Nodup) : (mapKeys (mapDelete m k)).Nodup := by
  rw [mapKeys_mapDelete]
  exact h.filter _

theorem mem_setAdd (m : List String) (h x : String) : x ∈ setAdd m h ↔ x ∈ m ∨ x = h := by
  unfold setAdd
  split
  · rename_i hm
    constructor
    · exact Or.inl
    · rintro (h1 | h1)
      · exact h1
      · exact h1 ▸ hm
  · simp

theorem nodup_setAdd (m : List String) (h : String) (hn : m.Nodup) : (setAdd m h).Nodup := by
  unfold setAdd
  split
  · exact hn
  · rename_i hm
    exact List.Nodup.append hn (List.nodup_singleton h) (by simpa using hm)

theorem mem_setDelete (m : List String) (h x : String) : x ∈ setDelete m h ↔ x ∈ m ∧ x ≠ h := by
  simp [setDelete]

theorem nodup_setDelete (m : List String) (h : String) (hn : m.Nodup) :
    (setDelete m h).Nodup := hn.filter _

/-! ## Lemmas on the Bundle Index operations -/

theorem bmMem_evictBundle (bm : List (String × List String)) (r : wsTransaction)
    (b h : String) :
    bmMem (evictBundle bm r) b h ↔ bmMem bm b h ∧ ¬ (b = r.Bundle ∧ h = r.Hash) := by
  unfold evictBundle bmMem
  cases hg : mapGet bm r.Bundle with
  | none =>
    simp only
    constructor
    · rintro ⟨ms, h1, h2⟩
      refine ⟨⟨ms, h1, h2⟩, ?_⟩
      rintro ⟨rfl, -⟩
      rw [hg] at h1
      cases h1
    · rintro ⟨h1, -⟩
      exact h1
  | some members =>
    simp only
    split
    · rename_i hlen
      have hnil : setDelete members r.Hash = [] := List.length_eq_zero.mp hlen
      simp only [mapGet_mapDelete]
      constructor
      · rintro ⟨ms, h1, h2⟩
        by_cases hb : r.Bundle = b
        · simp [hb] at h1
        · simp only [hb, if_false] at h1
          exact ⟨⟨ms, h1, h2⟩, fun hc => hb hc.1.symm⟩
      · rintro ⟨⟨ms, h1, h2⟩, h3⟩
        by_cases hb : r.Bundle = b
        · exfalso
          subst hb
          rw [hg] at h1
          cases h1
          have hne : h ≠ r.Hash := fun e => h3 ⟨rfl, e⟩
          have : h ∈ setDelete members r.Hash := (mem_setDelete _ _ _).2 ⟨h2, hne⟩
          rw [hnil] at this
          cases this
        · exact ⟨ms, by simp only [hb, if_false]; exact h1, h2⟩
    · simp only [mapGet_mapSet]
      constructor
      · rintro ⟨ms, h1, h2⟩
        by_cases hb : r.Bundle = b
        · subst hb
          simp only [if_true, Option.some.injEq] at h1
          subst h1
          rw [mem_setDelete] at h2
          exact ⟨⟨members, hg, h2.1⟩, fun hc => h2.2 hc.2⟩
        · simp only [hb, if_false] at h1
          exact ⟨⟨ms, h1, h2⟩, fun hc => hb hc.1.symm⟩
      · rintro ⟨⟨ms, h1, h2⟩, h3⟩
        by_cases hb : r.Bundle = b
        · subst hb
          rw [hg] at h1
          cases h1
          refine ⟨setDelete members r.Hash, by simp, ?_⟩
          exact (mem_setDelete _ _ _).2 ⟨h2, fun e => h3 ⟨rfl, e⟩⟩
        · exact ⟨ms, by simp only [hb, if_false]; exact h1, h2⟩

theorem bmMem_addBundle (bm : List (String × List String)) (b0 h0 b h : String) :
    bmMem (addBundle bm b0 h0) b h ↔ bmMem bm b h ∨ (b = b0 ∧ h = h0) := by
  unfold addBundle bmMem
  cases hg : mapGet bm b0 with
  | none =>
    simp only [mapGet_mapSet, if_true]
    by_cases hb : b0 = b
    · subst hb
      simp [hg, mem_setAdd]
    · have hb2 : ¬ b = b0 := fun e => hb e.symm
      simp [hb, hb2]
  | some members =>
    simp only [hg, mapGet_mapSet]
    by_cases hb : b0 = b
    · subst hb
      simp [hg, mem_setAdd]
    · have hb2 : ¬ b = b0 := fun e => hb e.symm
      simp [hb, hb2]

theorem mapGet_evictBundle_cases (bm : List (String × List String)) (r : wsTransaction)
    (b : String) (ms : List String) (h : mapGet (evictBundle bm r) b = some ms) :
    mapGet bm b = some ms ∨
      (∃ ms0, mapGet bm b = some ms0 ∧ ms = setDelete ms0 r.Hash ∧ ms ≠ []) := by
  unfold evictBundle at h
  cases hg : mapGet bm r.Bundle with
  | none =>
    rw [hg] at h
    exact Or.inl h
  | some members =>
    rw [hg] at h
    simp only at h
    split at h
    · rw [mapGet_mapDelete] at h
      split at h
      · cases h
      · exact Or.inl h
    · rename_i hlen
      rw [mapGet_mapSet] at h
      split at h
      · rename_i hb
        subst hb
        simp only [Option.some.injEq] at h
        subst h
        exact Or.inr ⟨members, hg, rfl, fun e => hlen (by rw [e]; rfl)⟩
      · exact Or.inl h

theorem mapGet_addBundle_cases (bm : List (String × List String)) (b0 h0 b : String)
    (ms : List String) (h : mapGet (addBundle bm b0 h0) b = some ms) :
    mapGet bm b = some ms ∨ ms = [h0] ∨ (∃ ms0, mapGet bm b = some ms0 ∧ ms = setAdd ms0 h0) := by
  unfold addBundle at h
  cases hg : mapGet bm b0 with
  | none =>
    rw [hg] at h
    simp only [mapGet_mapSet, if_true] at h
    split at h
    · simp only [Option.some.injEq] at h
      subst h
      exact Or.inr (Or.inl (by simp [setAdd]))
    · exact Or.inl h
  | some members =>
    rw [hg] at h
    simp only [hg, mapGet_mapSet] at h
    split at h
    · rename_i hb
      subst hb
      simp only [Option.some.injEq] at h
      exact Or.inr (Or.inr ⟨members, hg, h.symm⟩)
    · exact Or.inl h

theorem nodup_mapKeys_evictBundle (bm : List (String × List String)) (r : wsTransaction)
    (h : (mapKeys bm).Nodup) : (mapKeys (evictBundle bm r)).Nodup := by
  unfold evictBundle
  cases mapGet bm r.Bundle with
  | none => exact h
  | some members =>
    simp only
    split
    · exact nodup_mapKeys_mapDelete _ _ h
    · exact nodup_mapKeys_mapSet _ _ _ h

theorem nodup_mapKeys_addBundle (bm : List (String × List String)) (b0 h0 : String)
    (h : (mapKeys bm).Nodup) : (mapKeys (addBundle bm b0 h0)).Nodup := by
  unfold addBundle
  cases hg : mapGet bm b0 with
  | none =>
    simp only [mapGet_mapSet, if_true]
    exact nodup_mapKeys_mapSet _ _ _ (nodup_mapKeys_mapSet _ _ _ h)
  | some members =>
    simp only [hg]
    exact nodup_mapKeys_mapSet _ _ _ h

/-! ## Consistency of the two indices with the cached pointers -/

theorem IdxInv.nil (hf bf : Nat → String) : IdxInv hf bf [] [] [] where
  hashNodup := by simp
  pmSpec := by simp [mapGet]
  pmKeys := by simp [mapKeys]
  bmSpec := by simp [bmMem, mapGet]
  bmKeys := by simp [mapKeys]
  bmNonempty := by simp [mapGet]
  bmNodup := by simp [mapGet]

theorem IdxInv.congr {hf bf hf' bf' : Nat → String} {c : List Nat} {pm : List (String × Nat)}
    {bm : List (String × List String)} (hc : ∀ p ∈ c, hf' p = hf p ∧ bf' p = bf p)
    (I : IdxInv hf bf c pm bm) : IdxInv hf' bf' c pm bm where
  hashNodup := by
    have : c.map hf' = c.map hf := List.map_congr_left (fun p hp => (hc p hp).1)
    rw [this]
    exact I.hashNodup
  pmSpec := by
    intro h p
    rw [I.pmSpec]
    constructor
    · rintro ⟨h1, h2⟩
      exact ⟨h1, by rw [(hc p h1).1]; exact h2⟩
    · rintro ⟨h1, h2⟩
      exact ⟨h1, by rw [← (hc p h1).1]; exact h2⟩
  pmKeys := I.pmKeys
  bmSpec := by
    intro b h
    rw [I.bmSpec]
    constructor
    · rintro ⟨p, h1, h2, h3⟩
      exact ⟨p, h1, by rw [(hc p h1).1]; exact h2, by rw [(hc p h1).2]; exact h3⟩
    · rintro ⟨p, h1, h2, h3⟩
      exact ⟨p, h1, by rw [← (hc p h1).1]; exact h2, by rw [← (hc p h1).2]; exact h3⟩
  bmKeys := I.bmKeys
  bmNonempty := I.bmNonempty
  bmNodup := I.bmNodup

theorem IdxInv.hash_inj {hf bf : Nat → String} {c : List Nat} {pm : List (String × Nat)}
    {bm : List (String × List String)} (I : IdxInv hf bf c pm bm) {p q : Nat}
    (hp : p ∈ c) (hq : q ∈ c) (h : hf p = hf q) : p = q := by
  have h1 : mapGet pm (hf p) = some p := (I.pmSpec _ _).2 ⟨hp, rfl⟩
  have h2 : mapGet pm (hf p) = some q := (I.pmSpec _ _).2 ⟨hq, h.symm⟩
  rw [h1] at h2
  exact Option.some.inj h2

theorem IdxInv.evict {hf bf : Nat → String} {po : Nat} {c : List Nat}
    {pm : List (String × Nat)} {bm : List (String × List String)} (r : wsTransaction)
    (hrh : r.Hash = hf po) (hrb : r.Bundle = bf po) (I : IdxInv hf bf (po :: c) pm bm) :
    IdxInv hf bf c (mapDelete pm (hf po)) (evictBundle bm r) := by
  have hnd := I.hashNodup
  rw [List.map_cons, List.nodup_cons] at hnd
  have hfresh : ∀ p ∈ c, hf p ≠ hf po := fun p hp e =>
    hnd.1 (e ▸ List.mem_map_of_mem hf hp)
  refine ⟨hnd.2, ?_, nodup_mapKeys_mapDelete _ _ I.pmKeys, ?_,
    nodup_mapKeys_evictBundle _ _ I.bmKeys, ?_, ?_⟩
  · intro h p
    rw [mapGet_mapDelete]
    split
    · rename_i he
      subst he
      constructor
      · intro hc
        cases hc
      · rintro ⟨h1, h2⟩
        exact absurd h2 (hfresh p h1)
    · rename_i hne
      rw [I.pmSpec]
      constructor
      · rintro ⟨h1, h2⟩
        rcases List.mem_cons.1 h1 with h3 | h3
        · subst h3
          exact absurd h2 hne
        · exact ⟨h3, h2⟩
      · rintro ⟨h1, h2⟩
        exact ⟨List.mem_cons_of_mem _ h1, h2⟩
  · intro b h
    rw [bmMem_evictBundle, I.bmSpec, hrh, hrb]
    constructor
    · rintro ⟨⟨p, h1, h2, h3⟩, h4⟩
      rcases List.mem_cons.1 h1 with h5 | h5
      · subst h5
        exact absurd ⟨h3.symm, h2.symm⟩ h4
      · exact ⟨p, h5, h2, h3⟩
    · rintro ⟨p, h1, h2, h3⟩
      refine ⟨⟨p, List.mem_cons_of_mem _ h1, h2, h3⟩, ?_⟩
      rintro ⟨-, h5⟩
      exact hfresh p h1 (h2.trans h5)
  · intro b ms h
    rcases mapGet_evictBundle_cases _ _ _ _ h with h1 | ⟨ms0, -, -, h3⟩
    · exact I.bmNonempty b ms h1
    · exact h3
  · intro b ms h
    rcases mapGet_evictBundle_cases _ _ _ _ h with h1 | ⟨ms0, h1, h2, -⟩
    · exact I.bmNodup b ms h1
    · rw [h2]
      exact nodup_setDelete _ _ (I.bmNodup b ms0 h1)

theorem IdxInv.add {hf bf : Nat → String} {pn : Nat} {c : List Nat}
    {pm : List (String × Nat)} {bm : List (String × List String)}
    (hnew : mapGet pm (hf pn) = none) (I : IdxInv hf bf c pm bm) :
    IdxInv hf bf (c ++ [pn]) (mapSet pm (hf pn) pn) (addBundle bm (bf pn) (hf pn)) := by
  have hfresh : ∀ p ∈ c, hf p ≠ hf pn := by
    intro p hp e
    have : mapGet pm (hf pn) = some p := (I.pmSpec _ _).2 ⟨hp, e⟩
    rw [hnew] at this
    cases this
  refine ⟨?_, ?_, nodup_mapKeys_mapSet _ _ _ I.pmKeys, ?_,
    nodup_mapKeys_addBundle _ _ _ I.bmKeys, ?_, ?_⟩
  · rw [List.map_append, List.map_singleton]
    refine List.Nodup.append I.hashNodup (List.nodup_singleton _) ?_
    intro x hx1 hx2
    rw [List.mem_singleton] at hx2
    subst hx2
    obtain ⟨p, hp, e⟩ := List.mem_map.1 hx1
    exact hfresh p hp e
  · intro h p
    rw [mapGet_mapSet]
    split
    · rename_i he
      subst he
      constructor
      · intro hc
        cases hc
        exact ⟨by simp, rfl⟩
      · rintro ⟨h1, h2⟩
        rcases List.mem_append.1 h1 with h3 | h3
        · exact absurd h2 (hfresh p h3)
        · rw [List.mem_singleton] at h3
          rw [h3]
    · rename_i hne
      rw [I.pmSpec]
      constructor
      · rintro ⟨h1, h2⟩
        exact ⟨List.mem_append_left _ h1, h2⟩
      · rintro ⟨h1, h2⟩
        rcases List.mem_append.1 h1 with h3 | h3
        · exact ⟨h3, h2⟩
        · rw [List.mem_singleton] at h3
          subst h3
          exact absurd h2 hne
  · intro b h
    rw [bmMem_addBundle, I.bmSpec]
    constructor
    · rintro (⟨p, h1, h2, h3⟩ | ⟨h1, h2⟩)
      · exact ⟨p, List.mem_append_left _ h1, h2, h3⟩
      · exact ⟨pn, by simp, h2.symm, h1.symm⟩
    · rintro ⟨p, h1, h2, h3⟩
      rcases List.mem_append.1 h1 with h4 | h4
      · exact Or.inl ⟨p, h4, h2, h3⟩
      · rw [List.mem_singleton] at h4
        subst h4
        exact Or.inr ⟨h3.symm, h2.symm⟩
  · intro b ms h
    rcases mapGet_addBundle_cases _ _ _ _ _ h with h1 | h1 | ⟨ms0, h1, h2⟩
    · exact I.bmNonempty b ms h1
    · rw [h1]
      simp
    · rw [h2]
      intro e
      have : hf pn ∈ setAdd ms0 (hf pn) := (mem_setAdd _ _ _).2 (Or.inr rfl)
      rw [e] at this
      cases this
  · intro b ms h
    rcases mapGet_addBundle_cases _ _ _ _ _ h with h1 | h1 | ⟨ms0, h1, h2⟩
    · exact I.bmNodup b ms h1
    · rw [h1]
      simp
    · rw [h2]
      exact nodup_setAdd _ _ (I.bmNodup b ms0 h1)

/-! ## Lemmas on the heap -/

theorem deref_append_lt (heap : List wsTransaction) (r : wsTransaction) (p : Nat)
    (h : p < heap.length) : deref (heap ++ [r]) p = deref heap p := by
  simp [deref, List.getD_eq_getElem?_getD, List.getElem?_append_left h]

theorem deref_append_length (heap : List wsTransaction) (r : wsTransaction) :
    deref (heap ++ [r]) heap.length = r := by
  simp [deref, List.getD_eq_getElem?_getD]

theorem length_store (heap : List wsTransaction) (p : Nat) (f : wsTransaction → wsTransaction) :
    (store heap p f).length = heap.length := by
  simp [store]

theorem deref_store_same (heap : List wsTransaction) (p : Nat)
    (f : wsTransaction → wsTransaction) (h : p < heap.length) :
    deref (store heap p f) p = f (deref heap p) := by
  simp [deref, store, List.getD_eq_getElem?_getD, List.getElem?_set, h]

theorem deref_store_ne (heap : List wsTransaction) (p q : Nat)
    (f : wsTransaction → wsTransaction) (h : q ≠ p) :
    deref (store heap p f) q = deref heap q := by
  have h2 : ¬ p = q := fun e => h e.symm
  simp [deref, store, List.getD_eq_getElem?_getD, List.getElem?_set, h2]

theorem deref_store_ge (heap : List wsTransaction) (p q : Nat)
    (f : wsTransaction → wsTransaction) (h : heap.length ≤ p) :
    deref (store heap p f) q = deref heap q := by
  simp [store, List.set_eq_of_length_le h]

theorem RecLe.rrefl (r : wsTransaction) : RecLe r r :=
  ⟨rfl, rfl, rfl, rfl, rfl, rfl, id, id, id⟩

theorem RecLe.rtrans {a b c : wsTransaction} (h1 : RecLe a b) (h2 : RecLe b c) : RecLe a c :=
  ⟨h2.hash.trans h1.hash, h2.address.trans h1.address, h2.value.trans h1.value,
    h2.tag.trans h1.tag, h2.bundle.trans h1.bundle, h2.receivedAt.trans h1.receivedAt,
    fun h => h2.confirmed (h1.confirmed h), fun h => h2.milestone (h1.milestone h),
    fun h => h2.reattached (h1.reattached h)⟩

theorem HeapLe.hrefl (heap : List wsTransaction) : HeapLe heap heap :=
  ⟨rfl, fun _ => RecLe.rrefl _⟩

theorem HeapLe.htrans {a b c : List wsTransaction} (h1 : HeapLe a b) (h2 : HeapLe b c) :
    HeapLe a c :=
  ⟨h2.1.trans h1.1, fun q => (h1.2 q).rtrans (h2.2 q)⟩

theorem HeapLe.store (heap : List wsTransaction) (p : Nat) (f : wsTransaction → wsTransaction)
    (hf : ∀ r, RecLe r (f r)) : HeapLe heap (store heap p f) := by
  refine ⟨length_store _ _ _, fun q => ?_⟩
  by_cases hq : q = p
  · subst hq
    by_cases hl : q < heap.length
    · rw [deref_store_same _ _ _ hl]
      exact hf _
    · rw [deref_store_ge _ _ _ _ (Nat.le_of_not_lt hl)]
      exact RecLe.rrefl _
  · rw [deref_store_ne _ _ _ _ hq]
    exact RecLe.rrefl _

theorem recLe_setConfirmed (r : wsTransaction) : RecLe r { r with Confirmed := true } :=
  ⟨rfl, rfl, rfl, rfl, rfl, rfl, fun _ => rfl, id, id⟩

theorem recLe_setConfTime (r : wsTransaction) (t : Int) : RecLe r { r with ConfTime := t } :=
  ⟨rfl, rfl, rfl, rfl, rfl, rfl, id, id, id⟩

theorem recLe_setMilestone (r : wsTransaction) : RecLe r { r with Milestone := "t" } :=
  ⟨rfl, rfl, rfl, rfl, rfl, rfl, id, fun _ => rfl, id⟩

theorem recLe_setReattached (r : wsTransaction) : RecLe r { r with Reattached := true } :=
  ⟨rfl, rfl, rfl, rfl, rfl, rfl, id, id, fun _ => rfl⟩

theorem heapLe_milestoneLoop (pm : List (String × Nat)) (confTime : Int) (txs : List Tx)
    (heap : List wsTransaction) : HeapLe heap (milestoneLoop pm confTime txs heap) := by
  induction txs generalizing heap with
  | nil => exact HeapLe.hrefl _
  | cons tx rest ih =>
    unfold milestoneLoop
    cases mapGet pm tx.Hash with
    | none => exact ih heap
    | some wsTx =>
      simp only
      refine HeapLe.htrans ?_ (ih _)
      exact ((HeapLe.store _ _ _ recLe_setConfirmed).htrans
        (HeapLe.store _ _ _ recLe_setMilestone)).htrans
        (HeapLe.store _ _ _ (fun r => recLe_setConfTime r confTime))

theorem heapLe_reattachLoop (pm : List (String × Nat)) (ms : List String)
    (heap : List wsTransaction) (updates : List wsReattachment) :
    HeapLe heap (reattachLoop pm ms heap updates).1 := by
  induction ms generalizing heap updates with
  | nil => exact HeapLe.hrefl _
  | cons h rest ih =>
    unfold reattachLoop
    cases mapGet pm h with
    | none => exact ih heap updates
    | some wsTx =>
      simp only
      exact HeapLe.htrans (HeapLe.store _ _ _ recLe_setReattached) (ih _ _)

theorem heapLe_onConfirmedTx (s : State) (iotaTx : Tx) (msIndex : Nat) (confTime : Int)
    (ledgerChanges : Option Nat) :
    HeapLe s.heap (onConfirmedTx s iotaTx msIndex confTime ledgerChanges).1.heap := by
  unfold onConfirmedTx
  cases mapGet s.txPointerMap iotaTx.Hash with
  | none => exact HeapLe.hrefl _
  | some wsTx =>
    exact (HeapLe.store _ _ _ recLe_setConfirmed).htrans
      (HeapLe.store _ _ _ (fun r => recLe_setConfTime r _))

theorem heapLe_onNewMilestone (s : State) (bundle : Bundle) :
    HeapLe s.heap (onNewMilestone s bundle).1.heap :=
  heapLe_milestoneLoop _ _ _ _

theorem heapLe_onReattachment (s : State) (bundleHash : String) :
    HeapLe s.heap (onReattachment s bundleHash).1.heap := by
  unfold onReattachment
  cases mapGet s.bundleTransactionsMap bundleHash with
  | none => exact HeapLe.hrefl _
  | some members => exact heapLe_reattachLoop _ _ _ _

/-! ## Lemmas on the ring -/

theorem length_ringView (r : Ring) : (ringView r).length = r.vals.length := by
  simp only [ringView, List.length_append, List.length_drop, List.length_take]
  omega

theorem perm_ringView (r : Ring) : (ringView r).Perm r.vals := by
  unfold ringView
  exact List.perm_append_comm.trans (by rw [List.take_append_drop])

theorem ringView_eq_cons (r : Ring) (h : r.pos < r.vals.length) :
    ringView r = r.vals[r.pos] :: (r.vals.drop (r.pos + 1) ++ r.vals.take r.pos) := by
  unfold ringView
  rw [List.drop_eq_getElem_cons h]
  rfl

theorem value_eq (r : Ring) (h : r.pos < r.vals.length) : r.Value = r.vals[r.pos] := by
  simp [Ring.Value, List.getD_eq_getElem?_getD, List.getElem?_eq_getElem h]

theorem ringView_insert (r : Ring) (p : Nat) (h : r.pos < r.vals.length) :
    ringView ((r.setValue p).Next) = (ringView r).tail ++ [some p] := by
  rw [ringView_eq_cons r h]
  simp only [List.tail_cons, Ring.setValue, Ring.Next, ringView, List.length_set]
  rw [List.set_eq_take_append_cons_drop, if_pos h]
  have hlen : (List.take r.pos r.vals).length = r.pos := by
    rw [List.length_take]; omega
  split
  · rename_i h1
    have e1 : List.drop (r.pos + 1) (List.take r.pos r.vals ++ some p :: List.drop (r.pos + 1) r.vals)
        = List.drop (r.pos + 1) r.vals := by
      rw [List.drop_append_eq_append_drop, hlen]
      have : List.drop (r.pos + 1) (List.take r.pos r.vals) = [] :=
        List.drop_eq_nil_of_le (by omega)
      rw [this]
      simp
    have e2 : List.take (r.pos + 1) (List.take r.pos r.vals ++ some p :: List.drop (r.pos + 1) r.vals)
        = List.take r.pos r.vals ++ [some p] := by
      rw [List.take_append_eq_append_take, hlen]
      have : List.take (r.pos + 1) (List.take r.pos r.vals) = List.take r.pos r.vals :=
        List.take_of_length_le (by omega)
      rw [this]
      simp
    rw [e1, e2, List.append_assoc]
  · rename_i h1
    have hd : List.drop (r.pos + 1) r.vals = [] := List.drop_eq_nil_of_le (by omega)
    simp [hd]

theorem collect_map_some (n : Nat) (l : List Nat) (t : List (Option Nat))
    (ht : t = [] ∨ t.head? = some none) :
    collect n (l.map some ++ t) = l.take n := by
  induction l generalizing n with
  | nil =>
    cases n with
    | zero => simp [collect]
    | succ n =>
      rcases ht with ht | ht
      · subst ht
        simp [collect]
      · cases t with
        | nil => simp [collect]
        | cons a t =>
          simp only [List.head?_cons, Option.some.injEq] at ht
          subst ht
          simp [collect]
  | cons a l ih =>
    cases n with
    | zero => simp [collect]
    | succ n => simp [collect, ih]

theorem recentLoop_eq_collect (buf : Ring) (hpos : buf.pos < buf.vals.length) (fuel j : Nat)
    (hj : j < buf.vals.length) :
    recentLoop buf fuel
        ⟨buf.vals, if j ≤ buf.pos then buf.pos - j else buf.pos + buf.vals.length - j⟩ =
      collect fuel (((ringView buf).tail.reverse).drop j) := by
  induction fuel generalizing j with
  | zero => simp [recentLoop, collect]
  | succ fuel ih =>
    have hB : ((ringView buf).tail.reverse).length = buf.vals.length - 1 := by
      simp [length_ringView]
    unfold recentLoop
    simp only [Ring.Prev]
    by_cases hlast : j + 1 = buf.vals.length
    · have hq : (if (if j ≤ buf.pos then buf.pos - j else buf.pos + buf.vals.length - j) = 0
          then buf.vals.length - 1
          else (if j ≤ buf.pos then buf.pos - j else buf.pos + buf.vals.length - j) - 1)
          = buf.pos := by
        split <;> split <;> omega
      rw [if_pos hq]
      have : ((ringView buf).tail.reverse).drop j = [] :=
        List.drop_eq_nil_of_le (by omega)
      rw [this]
      simp [collect]
    · have hj1 : j + 1 < buf.vals.length := by omega
      have hq : (if (if j ≤ buf.pos then buf.pos - j else buf.pos + buf.vals.length - j) = 0
          then buf.vals.length - 1
          else (if j ≤ buf.pos then buf.pos - j else buf.pos + buf.vals.length - j) - 1)
          = (if j + 1 ≤ buf.pos then buf.pos - (j + 1)
              else buf.pos + buf.vals.length - (j + 1)) := by
        split <;> split <;> split <;> omega
      rw [hq]
      have hne : ¬ (if j + 1 ≤ buf.pos then buf.pos - (j + 1)
              else buf.pos + buf.vals.length - (j + 1)) = buf.pos := by
        split <;> omega
      rw [if_neg hne]
      have hjB : j < ((ringView buf).tail.reverse).length := by omega
      have hval : (Ring.mk buf.vals (if j + 1 ≤ buf.pos then buf.pos - (j + 1)
              else buf.pos + buf.vals.length - (j + 1))).Value
            = ((ringView buf).tail.reverse)[j] := by
        have hX : (ringView buf).tail =
            buf.vals.drop (buf.pos + 1) ++ buf.vals.take buf.pos := by
          rw [ringView_eq_cons buf hpos]; rfl
        have hXl : (ringView buf).tail.length = buf.vals.length - 1 := by
          simpa using hB
        have hDl : (buf.vals.drop (buf.pos + 1)).length = buf.vals.length - (buf.pos + 1) :=
          List.length_drop _ _
        apply Option.some.inj
        rw [← List.getElem?_eq_getElem hjB, List.getElem?_reverse (by omega), hXl]
        simp only [Ring.Value, List.getD_eq_getElem?_getD]
        rw [hX]
        by_cases hle : j + 1 ≤ buf.pos
        · rw [if_pos hle, List.getElem?_append_right (by rw [hDl]; omega), hDl,
            List.getElem?_take]
          have e : buf.vals.length - 1 - 1 - j - (buf.vals.length - (buf.pos + 1))
              = buf.pos - (j + 1) := by omega
          rw [e, if_pos (by omega)]
          have hin : buf.pos - (j + 1) < buf.vals.length := by omega
          rw [List.getElem?_eq_getElem hin]
          rfl
        · rw [if_neg hle, List.getElem?_append_left (by rw [hDl]; omega), List.getElem?_drop]
          have e : buf.pos + 1 + (buf.vals.length - 1 - 1 - j)
              = buf.pos + buf.vals.length - (j + 1) := by omega
          rw [e]
          have hin : buf.pos + buf.vals.length - (j + 1) < buf.vals.length := by omega
          rw [List.getElem?_eq_getElem hin]
          rfl
      rw [hval, List.drop_eq_getElem_cons hjB]
      cases hv : ((ringView buf).tail.reverse)[j] with
      | none => simp [collect]
      | some p =>
        simp only [collect]
        rw [ih (j + 1) hj1]

theorem recentPtrs_eq_collect (s : State) (amount : Int)
    (hpos : s.txRingBuffer.pos < s.txRingBuffer.vals.length) :
    recentPtrs s amount = collect amount.toNat ((ringView s.txRingBuffer).tail.reverse) := by
  have h := recentLoop_eq_collect s.txRingBuffer hpos amount.toNat 0 (by omega)
  simpa [recentPtrs] using h

/-! ## The invariant of reachable states -/

theorem length_cachedOf (size : Nat) (log : List Nat) :
    (cachedOf size log).length = min size log.length := by
  simp only [cachedOf, List.length_drop]
  omega

theorem mem_of_mem_cachedOf {size : Nat} {log : List Nat} {p : Nat}
    (h : p ∈ cachedOf size log) : p ∈ log :=
  List.mem_of_mem_drop h

theorem cachedOf_append (size : Nat) (hsize : 0 < size) (log : List Nat) (p : Nat) :
    cachedOf size (log ++ [p]) =
      (if log.length < size then cachedOf size log else (cachedOf size log).tail) ++ [p] := by
  unfold cachedOf
  split
  · rename_i h
    have e1 : (log ++ [p]).length - size = 0 := by
      simp only [List.length_append, List.length_singleton]; omega
    have e2 : log.length - size = 0 := by omega
    rw [e1, e2]
    rfl
  · rename_i h
    have e1 : (log ++ [p]).length - size = (log.length - size) + 1 := by
      simp only [List.length_append, List.length_singleton]; omega
    rw [e1, List.drop_append_of_le_length (by omega), List.tail_drop]

theorem Inv.init (size : Nat) (hsize : 0 < size) : Inv size (initRingBuffer size) [] where
  len := by simp [initRingBuffer, Ring.New]
  pos := by simpa [initRingBuffer, Ring.New] using hsize
  view := by simp [initRingBuffer, Ring.New, ringView, cachedOf]
  valid := by simp
  logNodup := by simp
  idx := by
    simpa [cachedOf, initRingBuffer] using IdxInv.nil
      (fun p => (deref (initRingBuffer size).heap p).Hash)
      (fun p => (deref (initRingBuffer size).heap p).Bundle)

theorem Inv.heap_change {size : Nat} {s s1 : State} {log : List Nat} (I : Inv size s log)
    (hr : s1.txRingBuffer = s.txRingBuffer) (hp : s1.txPointerMap = s.txPointerMap)
    (hb : s1.bundleTransactionsMap = s.bundleTransactionsMap)
    (hl : s.heap.length ≤ s1.heap.length)
    (hd : ∀ p, p < s.heap.length → (deref s1.heap p).Hash = (deref s.heap p).Hash ∧
      (deref s1.heap p).Bundle = (deref s.heap p).Bundle) : Inv size s1 log where
  len := by rw [hr]; exact I.len
  pos := by rw [hr]; exact I.pos
  view := by rw [hr]; exact I.view
  valid := fun p h => Nat.lt_of_lt_of_le (I.valid p h) hl
  logNodup := I.logNodup
  idx := by
    rw [hp, hb]
    exact IdxInv.congr (fun p h => hd p (I.valid p (mem_of_mem_cachedOf h))) I.idx

theorem Inv.heapLe {size : Nat} {s s1 : State} {log : List Nat} (I : Inv size s log)
    (hr : s1.txRingBuffer = s.txRingBuffer) (hp : s1.txPointerMap = s.txPointerMap)
    (hb : s1.bundleTransactionsMap = s.bundleTransactionsMap)
    (hh : HeapLe s.heap s1.heap) : Inv size s1 log :=
  I.heap_change hr hp hb (Nat.le_of_eq hh.1.symm) (fun p _ => ⟨(hh.2 p).hash, (hh.2 p).bundle⟩)

theorem onNewTx_dup (s : State) (iotaTx : Tx) (now : Int) (p : Nat)
    (h : mapGet s.txPointerMap iotaTx.Hash = some p) :
    onNewTx s iotaTx now = ({ s with heap := s.heap ++ [newRecord iotaTx now] }, []) := by
  simp [onNewTx, h]

theorem onNewTx_new (s : State) (iotaTx : Tx) (now : Int)
    (h : mapGet s.txPointerMap iotaTx.Hash = none) :
    onNewTx s iotaTx now =
      ({ heap := s.heap ++ [newRecord iotaTx now]
         txRingBuffer := (s.txRingBuffer.setValue s.heap.length).Next
         txPointerMap := mapSet
           (match s.txRingBuffer.Value with
            | some oldTx =>
              mapDelete s.txPointerMap (deref (s.heap ++ [newRecord iotaTx now]) oldTx).Hash
            | none => s.txPointerMap) iotaTx.Hash s.heap.length
         bundleTransactionsMap := addBundle
           (match s.txRingBuffer.Value with
            | some oldTx =>
              evictBundle s.bundleTransactionsMap (deref (s.heap ++ [newRecord iotaTx now]) oldTx)
            | none => s.bundleTransactionsMap) iotaTx.Bundle iotaTx.Hash },
       [Effect.newTX (newRecord iotaTx now)]) := by
  simp [onNewTx, h, deref_append_length, newRecord]

/-- The value at the write cursor: nil while the cache is not full, the oldest
cached pointer once it is. -/
theorem Inv.value_cursor {size : Nat} {s : State} {log : List Nat} (I : Inv size s log) :
    s.txRingBuffer.Value = if (cachedOf size log).length < size then none
      else (cachedOf size log).head? := by
  have hpos : s.txRingBuffer.pos < s.txRingBuffer.vals.length := by rw [I.len]; exact I.pos
  have h1 := ringView_eq_cons s.txRingBuffer hpos
  rw [I.view] at h1
  rw [value_eq _ hpos]
  split
  · rename_i hlt
    obtain ⟨k, hk⟩ : ∃ k, size - (cachedOf size log).length = k + 1 :=
      ⟨size - (cachedOf size log).length - 1, by omega⟩
    rw [hk, List.replicate_succ, List.cons_append] at h1
    exact (List.cons.inj h1).1.symm
  · rename_i hge
    have hz : size - (cachedOf size log).length = 0 := by omega
    rw [hz] at h1
    cases hc : cachedOf size log with
    | nil =>
      have := I.pos
      rw [hc] at hge
      simp only [List.length_nil] at hge
      omega
    | cons a t =>
      rw [hc] at h1
      simp only [List.replicate_zero, List.nil_append, List.map_cons] at h1
      rw [← (List.cons.inj h1).1]
      rfl

theorem Inv.newTx {size : Nat} {s : State} {log : List Nat} (I : Inv size s log)
    (iotaTx : Tx) (now : Int) (h : mapGet s.txPointerMap iotaTx.Hash = none) :
    Inv size (onNewTx s iotaTx now).1 (log ++ [s.heap.length]) := by
  have hsize : 0 < size := Nat.lt_of_le_of_lt (Nat.zero_le _) I.pos
  have hpos : s.txRingBuffer.pos < s.txRingBuffer.vals.length := by rw [I.len]; exact I.pos
  have hclen := length_cachedOf size log
  have hval := I.value_cursor
  have hold : ∀ p, p ∈ cachedOf size log →
      deref (s.heap ++ [newRecord iotaTx now]) p = deref s.heap p :=
    fun p hp => deref_append_lt _ _ _ (I.valid p (mem_of_mem_cachedOf hp))
  rw [onNewTx_new _ _ _ h]
  refine ⟨?_, ?_, ?_, ?_, ?_, ?_⟩
  · simp [Ring.Next, Ring.setValue, I.len]
  · have := I.len
    simp only [Ring.Next, Ring.setValue, List.length_set]
    split <;> omega
  · simp only
    rw [ringView_insert _ _ hpos, I.view, cachedOf_append size hsize]
    split
    · rename_i hlt
      obtain ⟨k, hk⟩ : ∃ k, size - (cachedOf size log).length = k + 1 :=
        ⟨size - (cachedOf size log).length - 1, by omega⟩
      have hk2 : size - (cachedOf size log ++ [s.heap.length]).length = k := by
        simp only [List.length_append, List.length_singleton]; omega
      rw [hk, hk2]
      simp [List.replicate_succ]
    · rename_i hge
      have hz : size - (cachedOf size log).length = 0 := by omega
      have hz2 : size - ((cachedOf size log).tail ++ [s.heap.length]).length = 0 := by
        simp only [List.length_append, List.length_singleton, List.length_tail]; omega
      rw [hz, hz2]
      cases hc : cachedOf size log with
      | nil => simp
      | cons a t => simp
  · intro p hp
    simp only [List.length_append, List.length_singleton]
    rcases List.mem_append.1 hp with h1 | h1
    · exact Nat.lt_succ_of_lt (I.valid p h1)
    · rw [List.mem_singleton] at h1
      omega
  · refine List.Nodup.append I.logNodup (List.nodup_singleton _) ?_
    intro x hx1 hx2
    rw [List.mem_singleton] at hx2
    subst hx2
    exact Nat.lt_irrefl _ (I.valid _ hx1)
  · have e1 : (deref (s.heap ++ [newRecord iotaTx now]) s.heap.length).Hash = iotaTx.Hash := by
      simp [deref_append_length, newRecord]
    have e2 : (deref (s.heap ++ [newRecord iotaTx now]) s.heap.length).Bundle
        = iotaTx.Bundle := by
      simp [deref_append_length, newRecord]
    have Ic : IdxInv (fun p => (deref (s.heap ++ [newRecord iotaTx now]) p).Hash)
        (fun p => (deref (s.heap ++ [newRecord iotaTx now]) p).Bundle)
        (cachedOf size log) s.txPointerMap s.bundleTransactionsMap := by
      refine IdxInv.congr (fun p hp => ?_) I.idx
      show (deref (s.heap ++ [newRecord iotaTx now]) p).Hash = (deref s.heap p).Hash ∧
        (deref (s.heap ++ [newRecord iotaTx now]) p).Bundle = (deref s.heap p).Bundle
      rw [hold p hp]
      exact ⟨rfl, rfl⟩
    simp only
    rw [cachedOf_append size hsize, hval]
    by_cases hlt : log.length < size
    · have hlt2 : (cachedOf size log).length < size := by omega
      rw [if_pos hlt, if_pos hlt2]
      simp only
      have hn : mapGet s.txPointerMap
          (deref (s.heap ++ [newRecord iotaTx now]) s.heap.length).Hash = none := by
        rw [e1]; exact h
      have := @IdxInv.add _ _ s.heap.length _ _ _ hn Ic
      simp only [e1, e2] at this
      exact this
    · have hge2 : ¬ (cachedOf size log).length < size := by omega
      rw [if_neg hlt, if_neg hge2]
      cases hc : cachedOf size log with
      | nil =>
        rw [hc] at hclen
        simp only [List.length_nil] at hclen
        omega
      | cons po t =>
        rw [hc] at Ic
        simp only [List.head?_cons, List.tail_cons]
        have Ie := IdxInv.evict (deref (s.heap ++ [newRecord iotaTx now]) po) rfl rfl Ic
        have hn : mapGet (mapDelete s.txPointerMap
            (deref (s.heap ++ [newRecord iotaTx now]) po).Hash)
            (deref (s.heap ++ [newRecord iotaTx now]) s.heap.length).Hash = none := by
          rw [mapGet_mapDelete, e1, h]
          simp
        have := @IdxInv.add _ _ s.heap.length _ _ _ hn Ie
        simp only [e1, e2] at this
        exact this

theorem Inv.step {size : Nat} {s : State} {log : List Nat} (I : Inv size s log) (c : Call) :
    Inv size (step s c).1 (stepLog s log c) := by
  cases c with
  | newTx iotaTx now =>
    simp only [Monitor.step, stepLog]
    cases h : mapGet s.txPointerMap iotaTx.Hash with
    | none => exact I.newTx iotaTx now h
    | some p =>
      rw [onNewTx_dup _ _ _ _ h]
      refine I.heap_change rfl rfl rfl (by simp) (fun q hq => ?_)
      simp only
      rw [deref_append_lt _ _ _ hq]
      exact ⟨rfl, rfl⟩
  | confirmedTx iotaTx msIndex confTime ledgerChanges =>
    exact I.heapLe rfl rfl rfl (heapLe_onConfirmedTx s iotaTx msIndex confTime ledgerChanges)
  | newMilestone bundle =>
    exact I.heapLe rfl rfl rfl (heapLe_onNewMilestone _ _)
  | reattachment bundleHash =>
    exact I.heapLe rfl rfl rfl (heapLe_onReattachment _ _)
  | api Atoi amountStr => exact I

theorem Reach.inv {size : Nat} (hsize : 0 < size) {s : State} {log : List Nat}
    (h : Reach size s log) : Inv size s log := by
  induction h with
  | init => exact Inv.init size hsize
  | step c _ ih => exact ih.step c

theorem reach_run_from (size : Nat) (cs : List Call) (s : State) (log : List Nat)
    (h : Reach size s log) : Reach size (run s cs) (runLog s log cs) := by
  induction cs generalizing s log with
  | nil => exact h
  | cons c cs ih => exact ih _ _ (Reach.step c h)

theorem reach_run (size : Nat) (cs : List Call) :
    Reach size (run (initRingBuffer size) cs) (runLog (initRingBuffer size) [] cs) :=
  reach_run_from size cs _ _ Reach.init

theorem reachable_run (size : Nat) (cs : List Call) :
    Reachable size (run (initRingBuffer size) cs) :=
  ⟨_, reach_run size cs⟩

theorem Inv.perm_occupied {size : Nat} {s : State} {log : List Nat} (I : Inv size s log) :
    (occupied s).Perm (cachedOf size log) := by
  have h1 : (occupied s).Perm ((ringView s.txRingBuffer).filterMap id) :=
    ((perm_ringView s.txRingBuffer).filterMap id).symm
  rw [I.view] at h1
  have h2 : (List.replicate (size - (cachedOf size log).length) (none : Option Nat) ++
      (cachedOf size log).map some).filterMap id = cachedOf size log := by
    rw [List.filterMap_append, List.filterMap_replicate_of_none (by rfl), List.filterMap_map]
    simp
  rw [h2] at h1
  exact h1

theorem Inv.mem_occupied {size : Nat} {s : State} {log : List Nat} (I : Inv size s log)
    (p : Nat) : p ∈ occupied s ↔ p ∈ cachedOf size log :=
  I.perm_occupied.mem_iff

theorem Inv.cached_nodup {size : Nat} {s : State} {log : List Nat} (I : Inv size s log) :
    (cachedOf size log).Nodup :=
  List.Nodup.of_map _ I.idx.hashNodup

/-- The pointers collected by the walk of `handleAPI`: the cached pointers from
newest to oldest, without the oldest one when the cache is full, cut at `amount`. -/
theorem Inv.recentPtrs_eq {size : Nat} {s : State} {log : List Nat} (I : Inv size s log)
    (amount : Int) :
    recentPtrs s amount =
      (if (cachedOf size log).length < size then (cachedOf size log).reverse
        else (cachedOf size log).tail.reverse).take amount.toNat := by
  have hpos : s.txRingBuffer.pos < s.txRingBuffer.vals.length := by rw [I.len]; exact I.pos
  rw [recentPtrs_eq_collect s amount hpos, I.view]
  split
  · rename_i hlt
    obtain ⟨k, hk⟩ : ∃ k, size - (cachedOf size log).length = k + 1 :=
      ⟨size - (cachedOf size log).length - 1, by omega⟩
    rw [hk, List.replicate_succ, List.cons_append, List.tail_cons, List.reverse_append,
      ← List.map_reverse, List.reverse_replicate]
    apply collect_map_some
    cases k with
    | zero => exact Or.inl rfl
    | succ k => exact Or.inr rfl
  · rename_i hge
    have hz : size - (cachedOf size log).length = 0 := by omega
    rw [hz, List.replicate_zero, List.nil_append, ← List.map_tail, ← List.map_reverse]
    have := collect_map_some amount.toNat (cachedOf size log).tail.reverse [] (Or.inl rfl)
    rw [List.append_nil] at this
    exact this

theorem Inv.perm_keys {size : Nat} {s : State} {log : List Nat} (I : Inv size s log) :
    (mapKeys s.txPointerMap).Perm ((cachedOf size log).map (fun p => (deref s.heap p).Hash)) := by
  rw [List.perm_ext_iff_of_nodup I.idx.pmKeys I.idx.hashNodup]
  intro h
  rw [mem_mapKeys_iff, List.mem_map]
  constructor
  · rintro ⟨p, hp⟩
    exact ⟨p, (I.idx.pmSpec h p).1 hp⟩
  · rintro ⟨p, hp⟩
    exact ⟨p, (I.idx.pmSpec h p).2 hp⟩

theorem map_deref_range (heap : List wsTransaction) :
    (List.range heap.length).map (deref heap) = heap := by
  apply List.ext_getElem
  · simp
  · intro n h1 h2
    simp [deref, List.getD_eq_getElem?_getD, List.getElem?_eq_getElem h2]

theorem insertAll_append (s : State) (txs : List (Tx × Int)) (e : Tx × Int) :
    insertAll s (txs ++ [e]) = (onNewTx (insertAll s txs) e.1 e.2).1 := by
  simp [insertAll, List.foldl_append]

/-- Inserting transactions with pairwise distinct hashes into the empty cache:
every call allocates and stores one record. -/
theorem insertAll_spec (size : Nat) (hsize : 0 < size) (txs : List (Tx × Int))
    (hdist : (txs.map (fun e => e.1.Hash)).Nodup) :
    Reach size (insertAll (initRingBuffer size) txs) (List.range txs.length) ∧
      (insertAll (initRingBuffer size) txs).heap = txs.map (fun e => newRecord e.1 e.2) := by
  induction txs using List.reverseRecOn with
  | nil => exact ⟨Reach.init, rfl⟩
  | append_singleton txs e ih =>
    rw [List.map_append, List.nodup_append] at hdist
    obtain ⟨hd1, -, hd3⟩ := hdist
    obtain ⟨hr, hh⟩ := ih hd1
    have I := hr.inv hsize
    have hnew : mapGet (insertAll (initRingBuffer size) txs).txPointerMap e.1.Hash = none := by
      cases hg : mapGet (insertAll (initRingBuffer size) txs).txPointerMap e.1.Hash with
      | none => rfl
      | some p =>
        exfalso
        obtain ⟨hp1, hp2⟩ := (I.idx.pmSpec _ _).1 hg
        have hp3 := I.valid p (mem_of_mem_cachedOf hp1)
        rw [hh, List.length_map] at hp3
        have hp4 : deref (insertAll (initRingBuffer size) txs).heap p
            = newRecord txs[p].1 txs[p].2 := by
          rw [hh]
          simp [deref, List.getD_eq_getElem?_getD, List.getElem?_eq_getElem hp3]
        simp only [hp4] at hp2
        refine hd3 (a := e.1.Hash) ?_ (by simp)
        rw [List.mem_map]
        exact ⟨txs[p], List.getElem_mem _, by simpa [newRecord] using hp2⟩
    rw [insertAll_append]
    constructor
    · have := Reach.step (Call.newTx e.1 e.2) hr
      simp only [Monitor.step, stepLog, hnew] at this
      rw [hh, List.length_map] at this
      rw [List.length_append, List.length_singleton, List.range_succ]
      exact this
    · rw [onNewTx_new _ _ _ hnew]
      simp [hh]

/-! ## The claims -/

/-- C1 (capacity invariant): for every capacity `C ≥ 1` and every `k`, after
`onNewTx` on `C + k` transactions with pairwise distinct hashes, starting from
the empty cache, exactly `C` ring slots are occupied and the Hash Index has `C`
entries; read forward from the write cursor the ring holds the records of the
last `C` transactions in insertion order; each of them is found through the Hash
Index, and the first `k` hashes are neither in the Hash Index nor in the ring. -/
theorem C1_capacity_fifo (C k : Nat) (hC : 1 ≤ C) (txs : List (Tx × Int))
    (hlen : txs.length = C + k) (hdist : (txs.map (fun e => e.1.Hash)).Nodup) :
    (occupied (insertAll (initRingBuffer C) txs)).length = C ∧
    (insertAll (initRingBuffer C) txs).txPointerMap.length = C ∧
    (ringView (insertAll (initRingBuffer C) txs).txRingBuffer).map
        (Option.map (deref (insertAll (initRingBuffer C) txs).heap)) =
      (txs.drop k).map (fun e => some (newRecord e.1 e.2)) ∧
    ((occupied (insertAll (initRingBuffer C) txs)).map
        (deref (insertAll (initRingBuffer C) txs).heap)).Perm
      ((txs.drop k).map (fun e => newRecord e.1 e.2)) ∧
    (∀ e ∈ txs.drop k, ∃ p,
      mapGet (insertAll (initRingBuffer C) txs).txPointerMap e.1.Hash = some p ∧
      p ∈ occupied (insertAll (initRingBuffer C) txs) ∧
      deref (insertAll (initRingBuffer C) txs).heap p = newRecord e.1 e.2) ∧
    (∀ h ∈ mapKeys (insertAll (initRingBuffer C) txs).txPointerMap,
      h ∈ (txs.drop k).map (fun e => e.1.Hash)) ∧
    (∀ e ∈ txs.take k,
      mapGet (insertAll (initRingBuffer C) txs).txPointerMap e.1.Hash = none ∧
      ∀ p ∈ occupied (insertAll (initRingBuffer C) txs),
        (deref (insertAll (initRingBuffer C) txs).heap p).Hash ≠ e.1.Hash) := by
  obtain ⟨hr, hh⟩ := insertAll_spec C hC txs hdist
  generalize insertAll (initRingBuffer C) txs = s at hr hh ⊢
  have I := hr.inv hC
  have hcl : (cachedOf C (List.range txs.length)).length = C := by
    rw [length_cachedOf, List.length_range, hlen]
    exact Nat.min_eq_left (by omega)
  -- the cached records are those of the last `C` transactions
  have hrec : (cachedOf C (List.range txs.length)).map (deref s.heap) =
      (txs.drop k).map (fun e => newRecord e.1 e.2) := by
    have h1 : txs.length - C = k := by omega
    have h2 : s.heap.length = txs.length := by rw [hh, List.length_map]
    unfold cachedOf
    rw [List.length_range, h1, List.map_drop, List.map_drop, ← hh, ← h2,
      map_deref_range]
  have hmemrec : ∀ p ∈ cachedOf C (List.range txs.length),
      ∃ e ∈ txs.drop k, deref s.heap p = newRecord e.1 e.2 := by
    intro p hp
    have : deref s.heap p ∈ (txs.drop k).map (fun e => newRecord e.1 e.2) := by
      rw [← hrec]
      exact List.mem_map_of_mem _ hp
    obtain ⟨e, he1, he2⟩ := List.mem_map.1 this
    exact ⟨e, he1, he2.symm⟩
  have hkeys : ∀ h ∈ mapKeys s.txPointerMap, h ∈ (txs.drop k).map (fun e => e.1.Hash) := by
    intro h hk
    obtain ⟨p, hp⟩ := (mem_mapKeys_iff _ _).1 hk
    obtain ⟨hp1, hp2⟩ := (I.idx.pmSpec _ _).1 hp
    obtain ⟨e, he1, he2⟩ := hmemrec p hp1
    rw [List.mem_map]
    refine ⟨e, he1, ?_⟩
    simp only [he2] at hp2
    simpa [newRecord] using hp2
  have hsplit : ((txs.take k).map (fun e => e.1.Hash) ++
      (txs.drop k).map (fun e => e.1.Hash)).Nodup := by
    rw [← List.map_append, List.take_append_drop]
    exact hdist
  have hdisj := (List.nodup_append.1 hsplit).2.2
  refine ⟨?_, ?_, ?_, ?_, ?_, hkeys, ?_⟩
  · rw [I.perm_occupied.length_eq, hcl]
  · have := I.perm_keys.length_eq
    rw [List.length_map, hcl] at this
    simpa [mapKeys] using this
  · rw [I.view, hcl, Nat.sub_self, List.replicate_zero, List.nil_append, List.map_map]
    have : (Option.map (deref s.heap) ∘ some) = some ∘ deref s.heap := rfl
    rw [this, ← List.map_map, hrec, List.map_map]
    rfl
  · rw [← hrec]
    exact I.perm_occupied.map _
  · intro e he
    have : newRecord e.1 e.2 ∈ (cachedOf C (List.range txs.length)).map (deref s.heap) := by
      rw [hrec]
      exact List.mem_map_of_mem (fun e => newRecord e.1 e.2) he
    obtain ⟨p, hp1, hp2⟩ := List.mem_map.1 this
    refine ⟨p, (I.idx.pmSpec _ _).2 ⟨hp1, ?_⟩, (I.mem_occupied p).2 hp1, hp2⟩
    simp only [hp2]
    rfl
  · intro e he
    have hek : e.1.Hash ∈ (txs.take k).map (fun e => e.1.Hash) :=
      List.mem_map_of_mem (fun e => e.1.Hash) he
    constructor
    · rw [mapGet_eq_none_iff]
      intro hk
      exact hdisj hek (hkeys _ hk)
    · intro p hp heq
      obtain ⟨e2, he1, he2⟩ := hmemrec p ((I.mem_occupied p).1 hp)
      rw [he2] at heq
      refine hdisj hek ?_
      rw [List.mem_map]
      exact ⟨e2, he1, by simpa [newRecord] using heq⟩

/-- Witness for C1: capacity 2 and three transactions `T1`, `T2`, `T3`. -/
theorem C1_capacity_fifo_witness :
    (occupied (insertAll (initRingBuffer 2)
      [(⟨"T1", "A", 1, "G", "B1", 0, 0⟩, 10), (⟨"T2", "A", 2, "G", "B1", 1, 0⟩, 11),
       (⟨"T3", "A", 3, "G", "B2", 0, 0⟩, 12)])).length = 2 :=
  (C1_capacity_fifo 2 1 (by decide)
    [(⟨"T1", "A", 1, "G", "B1", 0, 0⟩, 10), (⟨"T2", "A", 2, "G", "B1", 1, 0⟩, 11),
     (⟨"T3", "A", 3, "G", "B2", 0, 0⟩, 12)] (by decide) (by decide)).1

/-- C2 (failing input): with capacity 3, after `onNewTx` of `T1` .. `T5` all three
slots are occupied, but the walk of `handleAPI` with amount 10 returns only the
records of `T5` and `T4`: it stops when it is back at the write cursor, whose
slot holds `T3`. The length 2 differs from `min 10 3`. -/
theorem C2_recent_full_cache :
    (occupied exState).length = 3 ∧
    (occupied exState).map (hashOf exState) = ["T4", "T5", "T3"] ∧
    (recent exState 10).map (fun r => r.Hash) = ["T5", "T4"] ∧
    (recent exState 10).length ≠ min 10 (occupied exState).length := by
  decide

/-- C3 (index consistency): in every reachable state the keys of the Hash Index
are exactly the hashes of the records in occupied ring slots, no two occupied
slots hold the same hash, the keys are pairwise distinct, and the Hash Index maps
a hash to a pointer exactly when that pointer is stored in the ring and
designates a record with that hash. -/
theorem C3_index_consistency (size : Nat) (hsize : 0 < size) (s : State)
    (hs : Reachable size s) :
    (∀ h, h ∈ mapKeys s.txPointerMap ↔ h ∈ (occupied s).map (hashOf s)) ∧
    ((occupied s).map (hashOf s)).Nodup ∧
    (mapKeys s.txPointerMap).Nodup ∧
    (∀ h p, mapGet s.txPointerMap h = some p ↔ (p ∈ occupied s ∧ hashOf s p = h)) := by
  obtain ⟨log, hl⟩ := hs
  have I := hl.inv hsize
  have h4 : ∀ h p, mapGet s.txPointerMap h = some p ↔ (p ∈ occupied s ∧ hashOf s p = h) := by
    intro h p
    rw [I.idx.pmSpec, I.mem_occupied]
    rfl
  refine ⟨?_, ?_, I.idx.pmKeys, h4⟩
  · intro h
    rw [mem_mapKeys_iff, List.mem_map]
    constructor
    · rintro ⟨p, hp⟩
      exact ⟨p, (h4 h p).1 hp⟩
    · rintro ⟨p, hp⟩
      exact ⟨p, (h4 h p).2 hp⟩
  · exact (I.perm_occupied.map _).nodup_iff.2 I.idx.hashNodup

/-- Witness for C3 on the example cache. -/
theorem C3_index_consistency_witness :
    ((occupied exState).map (hashOf exState)).Nodup ∧ (mapKeys exState.txPointerMap).Nodup :=
  ⟨(C3_index_consistency 3 (by decide) exState (reachable_run 3 exCalls)).2.1,
   (C3_index_consistency 3 (by decide) exState (reachable_run 3 exCalls)).2.2.1⟩

/-- C4 (duplicate insert): in a reachable state, `onNewTx` of a transaction whose
hash is a key of the Hash Index leaves the ring (slots and write cursor), the
Hash Index and the Bundle Index as they are, leaves every record designated by
the ring or the Hash Index as it is, leaves every snapshot as it is, and emits
nothing. -/
theorem C4_duplicate_noop (size : Nat) (hsize : 0 < size) (s : State)
    (hs : Reachable size s) (iotaTx : Tx) (now : Int)
    (hdup : iotaTx.Hash ∈ mapKeys s.txPointerMap) :
    (onNewTx s iotaTx now).1.txRingBuffer = s.txRingBuffer ∧
    (onNewTx s iotaTx now).1.txPointerMap = s.txPointerMap ∧
    (onNewTx s iotaTx now).1.bundleTransactionsMap = s.bundleTransactionsMap ∧
    (∀ p ∈ occupied s, deref (onNewTx s iotaTx now).1.heap p = deref s.heap p) ∧
    (∀ h p, mapGet s.txPointerMap h = some p →
      deref (onNewTx s iotaTx now).1.heap p = deref s.heap p) ∧
    (∀ amount, recent (onNewTx s iotaTx now).1 amount = recent s amount) ∧
    (onNewTx s iotaTx now).2 = [] := by
  obtain ⟨log, hl⟩ := hs
  have I := hl.inv hsize
  obtain ⟨q, hq⟩ := (mem_mapKeys_iff _ _).1 hdup
  rw [onNewTx_dup _ _ _ _ hq]
  have hc : ∀ p ∈ cachedOf size log,
      deref (s.heap ++ [newRecord iotaTx now]) p = deref s.heap p :=
    fun p hp => deref_append_lt _ _ _ (I.valid p (mem_of_mem_cachedOf hp))
  refine ⟨rfl, rfl, rfl, ?_, ?_, ?_, rfl⟩
  · intro p hp
    exact hc p ((I.mem_occupied p).1 hp)
  · intro h p hp
    exact hc p ((I.idx.pmSpec h p).1 hp).1
  · intro amount
    have hsame : recentPtrs { s with heap := s.heap ++ [newRecord iotaTx now] } amount
        = recentPtrs s amount := rfl
    unfold recent
    rw [hsame]
    apply List.map_congr_left
    intro p hp
    apply hc
    rw [I.recentPtrs_eq] at hp
    have hp2 := List.mem_of_mem_take hp
    split at hp2
    · exact List.mem_reverse.1 hp2
    · exact List.mem_of_mem_tail (List.mem_reverse.1 hp2)

/-- Witness for C4: `T4` is cached in the example cache and is inserted again. -/
theorem C4_duplicate_noop_witness :
    (onNewTx exState (exTx "T4" "B9") 9).1.txPointerMap = exState.txPointerMap ∧
    (onNewTx exState (exTx "T4" "B9") 9).2 = [] :=
  ⟨(C4_duplicate_noop 3 (by decide) exState (reachable_run 3 exCalls) (exTx "T4" "B9") 9
      (by decide)).2.1,
   (C4_duplicate_noop 3 (by decide) exState (reachable_run 3 exCalls) (exTx "T4" "B9") 9
      (by decide)).2.2.2.2.2.2⟩

/-- C5 (insertion and eviction): in a reachable state with insertion log `log`,
`onNewTx` of a transaction whose hash is not in the Hash Index writes the new
record into the slot at the write cursor and advances the cursor by one slot
modulo the capacity. If not all slots are occupied, that slot was empty and
nothing is evicted: every cached pointer, Hash Index entry, bundle membership and
record is kept. If all slots are occupied, the slot held the pointer `po` that
comes first in the log among the cached ones; `po` leaves the ring, its hash
leaves the Hash Index and every member set of the Bundle Index, and the other
cached pointers stay in the ring, in the Hash Index and in their bundle's member
set, with unchanged records. -/
theorem C5_insert_evicts_oldest (size : Nat) (hsize : 0 < size) (s : State) (log : List Nat)
    (hs : Reach size s log) (iotaTx : Tx) (now : Int)
    (hnew : mapGet s.txPointerMap iotaTx.Hash = none) :
    (onNewTx s iotaTx now).1.txRingBuffer.vals =
      s.txRingBuffer.vals.set s.txRingBuffer.pos (some s.heap.length) ∧
    s.txRingBuffer.pos < s.txRingBuffer.vals.length ∧
    s.txRingBuffer.vals.length = size ∧
    (onNewTx s iotaTx now).1.txRingBuffer.pos = (s.txRingBuffer.pos + 1) % size ∧
    deref (onNewTx s iotaTx now).1.heap s.heap.length = newRecord iotaTx now ∧
    ((occupied s).length < size →
      s.txRingBuffer.Value = none ∧
      (occupied (onNewTx s iotaTx now).1).Perm (occupied s ++ [s.heap.length]) ∧
      (∀ h p, mapGet s.txPointerMap h = some p →
        mapGet (onNewTx s iotaTx now).1.txPointerMap h = some p) ∧
      (∀ b h, bmMem s.bundleTransactionsMap b h →
        bmMem (onNewTx s iotaTx now).1.bundleTransactionsMap b h) ∧
      (∀ p ∈ occupied s, deref (onNewTx s iotaTx now).1.heap p = deref s.heap p)) ∧
    ((occupied s).length = size →
      ∃ po older rest, log = older ++ po :: rest ∧ log.Nodup ∧
        (occupied s).Perm (po :: rest) ∧
        s.txRingBuffer.Value = some po ∧
        (occupied (onNewTx s iotaTx now).1).Perm (rest ++ [s.heap.length]) ∧
        po ∉ occupied (onNewTx s iotaTx now).1 ∧
        mapGet (onNewTx s iotaTx now).1.txPointerMap (hashOf s po) = none ∧
        (∀ b, ¬ bmMem (onNewTx s iotaTx now).1.bundleTransactionsMap b (hashOf s po)) ∧
        (∀ p ∈ rest,
          mapGet (onNewTx s iotaTx now).1.txPointerMap (hashOf s p) = some p ∧
          bmMem (onNewTx s iotaTx now).1.bundleTransactionsMap (bundleOf s p) (hashOf s p) ∧
          deref (onNewTx s iotaTx now).1.heap p = deref s.heap p)) := by
  have I := hs.inv hsize
  have I1 := I.newTx iotaTx now hnew
  have hpos : s.txRingBuffer.pos < s.txRingBuffer.vals.length := by rw [I.len]; exact I.pos
  have hclen := length_cachedOf size log
  have hocc : (occupied s).length = (cachedOf size log).length := I.perm_occupied.length_eq
  have hc1 := cachedOf_append size hsize log s.heap.length
  have hheap : (onNewTx s iotaTx now).1.heap = s.heap ++ [newRecord iotaTx now] := by
    rw [onNewTx_new _ _ _ hnew]
  have hold : ∀ p ∈ cachedOf size log, deref (onNewTx s iotaTx now).1.heap p = deref s.heap p := by
    intro p hp
    rw [hheap]
    exact deref_append_lt _ _ _ (I.valid p (mem_of_mem_cachedOf hp))
  have hnewrec : deref (onNewTx s iotaTx now).1.heap s.heap.length = newRecord iotaTx now := by
    rw [hheap]
    exact deref_append_length _ _
  refine ⟨?_, hpos, I.len, ?_, hnewrec, ?_, ?_⟩
  · rw [onNewTx_new _ _ _ hnew]
    rfl
  · rw [onNewTx_new _ _ _ hnew]
    simp only [Ring.Next, Ring.setValue, List.length_set, I.len]
    have := I.pos
    split
    · rename_i h1
      rw [Nat.mod_eq_of_lt h1]
    · rename_i h1
      have : s.txRingBuffer.pos + 1 = size := by omega
      rw [this, Nat.mod_self]
  · intro hlt
    have hlt2 : log.length < size := by omega
    rw [if_pos hlt2] at hc1
    refine ⟨?_, ?_, ?_, ?_, ?_⟩
    · rw [I.value_cursor, if_pos (by omega)]
    · have h1 := I1.perm_occupied
      rw [hc1] at h1
      exact h1.trans (I.perm_occupied.symm.append_right _)
    · intro h p hp
      obtain ⟨hp1, hp2⟩ := (I.idx.pmSpec h p).1 hp
      refine (I1.idx.pmSpec h p).2 ⟨?_, ?_⟩
      · rw [hc1]
        exact List.mem_append_left _ hp1
      · simp only [hold p hp1]
        exact hp2
    · intro b h hb
      obtain ⟨p, hp1, hp2, hp3⟩ := (I.idx.bmSpec b h).1 hb
      refine (I1.idx.bmSpec b h).2 ⟨p, ?_, ?_, ?_⟩
      · rw [hc1]
        exact List.mem_append_left _ hp1
      · simp only [hold p hp1]
        exact hp2
      · simp only [hold p hp1]
        exact hp3
    · intro p hp
      exact hold p ((I.mem_occupied p).1 hp)
  · intro hfull
    have hge : ¬ log.length < size := by omega
    rw [if_neg hge] at hc1
    cases hc : cachedOf size log with
    | nil =>
      rw [hc] at hocc
      simp only [List.length_nil] at hocc
      omega
    | cons po rest =>
      rw [hc] at hc1
      simp only [List.tail_cons] at hc1
      have hnd : (po :: rest).Nodup := hc ▸ I.cached_nodup
      have hporest : po ∉ rest := (List.nodup_cons.1 hnd).1
      have hpoc : po ∈ cachedOf size log := by rw [hc]; exact List.mem_cons_self _ _
      have hrestc : ∀ p ∈ rest, p ∈ cachedOf size log := by
        intro p hp
        rw [hc]
        exact List.mem_cons_of_mem _ hp
      have hpoidx : mapGet s.txPointerMap (hashOf s po) = some po :=
        (I.idx.pmSpec _ _).2 ⟨hpoc, rfl⟩
      -- no pointer cached afterwards designates a record with the hash of `po`
      have hno : ∀ p ∈ cachedOf size (log ++ [s.heap.length]),
          (deref (onNewTx s iotaTx now).1.heap p).Hash ≠ hashOf s po := by
        intro p hp heq
        rw [hc1] at hp
        rcases List.mem_append.1 hp with h1 | h1
        · rw [hold p (hrestc p h1)] at heq
          have := I.idx.hash_inj (hrestc p h1) hpoc heq
          exact hporest (this ▸ h1)
        · rw [List.mem_singleton] at h1
          subst h1
          rw [hnewrec] at heq
          have e : iotaTx.Hash = hashOf s po := heq
          rw [e, hpoidx] at hnew
          cases hnew
      refine ⟨po, log.take (log.length - size), rest, ?_, I.logNodup, ?_, ?_, ?_, ?_, ?_, ?_, ?_⟩
      · rw [← hc]
        exact (List.take_append_drop _ _).symm
      · have := I.perm_occupied
        rw [hc] at this
        exact this
      · rw [I.value_cursor, if_neg (by omega), hc]
        rfl
      · have h1 := I1.perm_occupied
        rw [hc1] at h1
        exact h1
      · intro hmem
        have h1 := (I1.mem_occupied po).1 hmem
        rw [hc1] at h1
        rcases List.mem_append.1 h1 with h2 | h2
        · exact hporest h2
        · rw [List.mem_singleton] at h2
          have := I.valid po (mem_of_mem_cachedOf hpoc)
          omega
      · cases hg : mapGet (onNewTx s iotaTx now).1.txPointerMap (hashOf s po) with
        | none => rfl
        | some p =>
          exfalso
          obtain ⟨hp1, hp2⟩ := (I1.idx.pmSpec _ _).1 hg
          exact hno p hp1 hp2
      · intro b hb
        obtain ⟨p, hp1, hp2, -⟩ := (I1.idx.bmSpec _ _).1 hb
        exact hno p hp1 hp2
      · intro p hp
        have hp1 : p ∈ cachedOf size (log ++ [s.heap.length]) := by
          rw [hc1]
          exact List.mem_append_left _ hp
        have hd := hold p (hrestc p hp)
        refine ⟨(I1.idx.pmSpec _ _).2 ⟨hp1, ?_⟩, (I1.idx.bmSpec _ _).2 ⟨p, hp1, ?_, ?_⟩, hd⟩
        · simp only [hd]; rfl
        · simp only [hd]; rfl
        · simp only [hd]; rfl

/-- Witness for C5: `T6` is inserted into the full example cache; the cursor
advances and the record at the cursor leaves the Hash Index. -/
theorem C5_insert_evicts_oldest_witness :
    (onNewTx exState (exTx "T6" "B3") 6).1.txRingBuffer.pos
        = (exState.txRingBuffer.pos + 1) % 3 ∧
    ∃ po, exState.txRingBuffer.Value = some po ∧
      mapGet (onNewTx exState (exTx "T6" "B3") 6).1.txPointerMap (hashOf exState po) = none := by
  have h := C5_insert_evicts_oldest 3 (by decide) exState (runLog (initRingBuffer 3) [] exCalls)
    (reach_run 3 exCalls) (exTx "T6" "B3") 6 (by decide)
  obtain ⟨po, older, rest, -, -, -, hv, -, -, hm, -⟩ := h.2.2.2.2.2.2 (by decide)
  exact ⟨h.2.2.2.1, po, hv, hm⟩

/-- C6 (bundle members are indexed): in every reachable state, every hash in the
member set of a key `b` of the Bundle Index is a key of the Hash Index, and the
record it maps to is stored in the ring and has `Bundle = b` and that hash. -/
theorem C6_bundle_members_indexed (size : Nat) (hsize : 0 < size) (s : State)
    (hs : Reachable size s) (b h : String) (ms : List String)
    (hb : mapGet s.bundleTransactionsMap b = some ms) (hh : h ∈ ms) :
    ∃ p, mapGet s.txPointerMap h = some p ∧ p ∈ occupied s ∧
      (deref s.heap p).Bundle = b ∧ (deref s.heap p).Hash = h := by
  obtain ⟨log, hl⟩ := hs
  have I := hl.inv hsize
  obtain ⟨p, hp1, hp2, hp3⟩ := (I.idx.bmSpec b h).1 ⟨ms, hb, hh⟩
  exact ⟨p, (I.idx.pmSpec h p).2 ⟨hp1, hp2⟩, (I.mem_occupied p).2 hp1, hp3, hp2⟩

/-- Witness for C6: `T4` is a member of bundle `B2` in the example cache. -/
theorem C6_bundle_members_indexed_witness :
    ∃ p, mapGet exState.txPointerMap "T4" = some p ∧ p ∈ occupied exState ∧
      (deref exState.heap p).Bundle = "B2" ∧ (deref exState.heap p).Hash = "T4" :=
  C6_bundle_members_indexed 3 (by decide) exState (reachable_run 3 exCalls) "B2" "T4"
    ["T3", "T4"] (by decide) (by decide)

/-- C7 (no empty member set): in every reachable state no key of the Bundle Index
maps to an empty member set. In particular, when `onNewTx` of a new hash finds the
pointer `po` at the write cursor, no other cached record has the bundle of `po`
and the new transaction has another bundle, then that bundle is a key of the
Bundle Index before the call and is not a key after it. -/
theorem C7_no_empty_member_set (size : Nat) (hsize : 0 < size) (s : State)
    (hs : Reachable size s) :
    (∀ b ms, mapGet s.bundleTransactionsMap b = some ms → ms ≠ []) ∧
    (∀ (iotaTx : Tx) (now : Int) (po : Nat),
      mapGet s.txPointerMap iotaTx.Hash = none →
      s.txRingBuffer.Value = some po →
      (∀ p ∈ occupied s, bundleOf s p = bundleOf s po → p = po) →
      iotaTx.Bundle ≠ bundleOf s po →
      bundleOf s po ∈ mapKeys s.bundleTransactionsMap ∧
      bundleOf s po ∉ mapKeys (onNewTx s iotaTx now).1.bundleTransactionsMap) := by
  obtain ⟨log, hl⟩ := hs
  have I := hl.inv hsize
  refine ⟨I.idx.bmNonempty, ?_⟩
  intro iotaTx now po hnew hval hlast hbundle
  have I1 := I.newTx iotaTx now hnew
  have hc1 := cachedOf_append size hsize log s.heap.length
  have hclen := length_cachedOf size log
  have hv := I.value_cursor
  rw [hval] at hv
  have hge : ¬ (cachedOf size log).length < size := by
    intro hlt
    rw [if_pos hlt] at hv
    cases hv
  rw [if_neg hge] at hv
  have hge2 : ¬ log.length < size := by omega
  rw [if_neg hge2] at hc1
  have hheap : (onNewTx s iotaTx now).1.heap = s.heap ++ [newRecord iotaTx now] := by
    rw [onNewTx_new _ _ _ hnew]
  cases hc : cachedOf size log with
  | nil =>
    rw [hc] at hv
    cases hv
  | cons a rest =>
    rw [hc] at hv hc1
    simp only [List.head?_cons, Option.some.injEq] at hv
    subst hv
    simp only [List.tail_cons] at hc1
    have hnd : (po :: rest).Nodup := hc ▸ I.cached_nodup
    have hpoc : po ∈ cachedOf size log := by rw [hc]; exact List.mem_cons_self _ _
    constructor
    · rw [mem_mapKeys_iff]
      obtain ⟨ms, hms, -⟩ :=
        (I.idx.bmSpec (bundleOf s po) (hashOf s po)).2 ⟨po, hpoc, rfl, rfl⟩
      exact ⟨ms, hms⟩
    · rw [mem_mapKeys_iff]
      rintro ⟨ms, hms⟩
      have hne := I1.idx.bmNonempty _ _ hms
      obtain ⟨h, hh⟩ := List.exists_mem_of_ne_nil ms hne
      obtain ⟨p, hp1, -, hp3⟩ := (I1.idx.bmSpec _ _).1 ⟨ms, hms, hh⟩
      rw [hc1] at hp1
      rcases List.mem_append.1 hp1 with h1 | h1
      · have hpc : p ∈ cachedOf size log := by rw [hc]; exact List.mem_cons_of_mem _ h1
        have hd : deref (onNewTx s iotaTx now).1.heap p = deref s.heap p := by
          rw [hheap]
          exact deref_append_lt _ _ _ (I.valid p (mem_of_mem_cachedOf hpc))
        simp only [hd] at hp3
        have := hlast p ((I.mem_occupied p).2 hpc) hp3
        subst this
        exact (List.nodup_cons.1 hnd).1 h1
      · rw [List.mem_singleton] at h1
        subst h1
        simp only [hheap, deref_append_length] at hp3
        exact hbundle hp3

/-- Witness for C7: in the cache holding `T4`, `T5`, `T6` no member set is empty,
and inserting `T7` of bundle `B4` evicts `T4`, the last cached record of bundle
`B2`, after which `B2` is not a key of the Bundle Index. -/
theorem C7_no_empty_member_set_witness :
    (∀ b ms, mapGet exState6.bundleTransactionsMap b = some ms → ms ≠ []) ∧
    bundleOf exState6 3 ∈ mapKeys exState6.bundleTransactionsMap ∧
    bundleOf exState6 3 ∉
      mapKeys (onNewTx exState6 (exTx "T7" "B4") 7).1.bundleTransactionsMap :=
  ⟨(C7_no_empty_member_set 3 (by decide) exState6 (reachable_run 3 exCalls6)).1,
   (C7_no_empty_member_set 3 (by decide) exState6 (reachable_run 3 exCalls6)).2
     (exTx "T7" "B4") 7 3 (by decide) (by decide) (by decide) (by decide)⟩

theorem Inv.mem_recentPtrs {size : Nat} {s : State} {log : List Nat} (I : Inv size s log)
    (amount : Int) (q : Nat) (hq : q ∈ recentPtrs s amount) : q ∈ cachedOf size log := by
  rw [I.recentPtrs_eq] at hq
  have hq2 := List.mem_of_mem_take hq
  split at hq2
  · exact List.mem_reverse.1 hq2
  · exact List.mem_of_mem_tail (List.mem_reverse.1 hq2)

theorem recLe_step (s : State) (c : Call) (p : Nat) (hp : p < s.heap.length) :
    RecLe (deref s.heap p) (deref (step s c).1.heap p) := by
  cases c with
  | newTx iotaTx now =>
    simp only [Monitor.step]
    cases h : mapGet s.txPointerMap iotaTx.Hash with
    | none =>
      rw [onNewTx_new _ _ _ h]
      simp only
      rw [deref_append_lt _ _ _ hp]
      exact RecLe.rrefl _
    | some q =>
      rw [onNewTx_dup _ _ _ _ h]
      simp only
      rw [deref_append_lt _ _ _ hp]
      exact RecLe.rrefl _
  | confirmedTx iotaTx msIndex confTime ledgerChanges =>
    exact (heapLe_onConfirmedTx s iotaTx msIndex confTime ledgerChanges).2 p
  | newMilestone bundle => exact (heapLe_onNewMilestone s bundle).2 p
  | reattachment bundleHash => exact (heapLe_onReattachment s bundleHash).2 p
  | api Atoi amountStr => exact RecLe.rrefl _

/-- A hash that is a key of the Hash Index before and after a handler call maps
to the same pointer. -/
theorem Inv.lookup_stable {size : Nat} {s : State} {log : List Nat} (I : Inv size s log)
    (c : Call) (h : String) (p p1 : Nat) (hb : mapGet s.txPointerMap h = some p)
    (ha : mapGet (Monitor.step s c).1.txPointerMap h = some p1) : p1 = p := by
  have I1 := I.step c
  obtain ⟨hp1, hp2⟩ := (I.idx.pmSpec h p).1 hb
  obtain ⟨hq1, hq2⟩ := (I1.idx.pmSpec h p1).1 ha
  have hsize : 0 < size := Nat.lt_of_le_of_lt (Nat.zero_le _) I.pos
  have hold : ∀ q ∈ cachedOf size log, (deref (Monitor.step s c).1.heap q).Hash = (deref s.heap q).Hash :=
    fun q hq => (recLe_step s c q (I.valid q (mem_of_mem_cachedOf hq))).hash
  have hcase : p1 ∈ cachedOf size log ∨
      (p1 = s.heap.length ∧ ∃ iotaTx now, c = Call.newTx iotaTx now ∧
        mapGet s.txPointerMap iotaTx.Hash = none) := by
    cases c with
    | newTx iotaTx now =>
      simp only [stepLog] at hq1
      cases hn : mapGet s.txPointerMap iotaTx.Hash with
      | some q =>
        rw [hn] at hq1
        exact Or.inl hq1
      | none =>
        rw [hn] at hq1
        simp only at hq1
        rw [cachedOf_append size hsize] at hq1
        rcases List.mem_append.1 hq1 with h1 | h1
        · left
          split at h1
          · exact h1
          · exact List.mem_of_mem_tail h1
        · right
          exact ⟨List.mem_singleton.1 h1, iotaTx, now, rfl, hn⟩
    | confirmedTx iotaTx msIndex confTime ledgerChanges => exact Or.inl hq1
    | newMilestone bundle => exact Or.inl hq1
    | reattachment bundleHash => exact Or.inl hq1
    | api Atoi amountStr => exact Or.inl hq1
  rcases hcase with h1 | ⟨h1, iotaTx, now, hc, hn⟩
  · have h2 := hold p1 h1
    have hq3 : (deref (Monitor.step s c).1.heap p1).Hash = h := hq2
    rw [h2] at hq3
    exact I.idx.hash_inj h1 hp1 (hq3.trans hp2.symm)
  · exfalso
    subst hc
    subst h1
    have hq3 : (deref (onNewTx s iotaTx now).1.heap s.heap.length).Hash = h := hq2
    rw [onNewTx_new _ _ _ hn] at hq3
    simp only [deref_append_length] at hq3
    have e : iotaTx.Hash = h := hq3
    rw [e, hb] at hn
    cases hn

/-- C8 (snapshot order): in a reachable state with insertion log `log`, the cached
pointers are the last entries of the log, and the pointers collected by the walk
of `handleAPI` are an initial segment of the cached pointers listed from the most
recently inserted to the least recently inserted, without repetition; the records
returned are the records these pointers designate, in the same order. -/
theorem C8_recent_newest_first (size : Nat) (hsize : 0 < size) (s : State) (log : List Nat)
    (hs : Reach size s log) (amount : Int) :
    (occupied s).Perm (cachedOf size log) ∧
    (∃ older, log = older ++ cachedOf size log) ∧
    recentPtrs s amount <+: (cachedOf size log).reverse ∧
    (recentPtrs s amount).Nodup ∧
    recent s amount <+: (cachedOf size log).reverse.map (deref s.heap) := by
  have I := hs.inv hsize
  have hpre : recentPtrs s amount <+: (cachedOf size log).reverse := by
    rw [I.recentPtrs_eq]
    refine (List.take_prefix _ _).trans ?_
    split
    · exact List.prefix_refl _
    · cases hc : cachedOf size log with
      | nil => exact List.prefix_refl _
      | cons a t =>
        rw [List.tail_cons, List.reverse_cons]
        exact List.prefix_append _ _
  refine ⟨I.perm_occupied, ⟨log.take (log.length - size), (List.take_append_drop _ _).symm⟩,
    hpre, ?_, ?_⟩
  · exact (List.nodup_reverse.2 I.cached_nodup).sublist hpre.sublist
  · obtain ⟨t, ht⟩ := hpre
    refine ⟨t.map (deref s.heap), ?_⟩
    rw [← ht, List.map_append]
    rfl

/-- Witness for C8 on the example cache. -/
theorem C8_recent_newest_first_witness :
    recentPtrs exState 10 <+: (cachedOf 3 (runLog (initRingBuffer 3) [] exCalls)).reverse :=
  (C8_recent_newest_first 3 (by decide) exState (runLog (initRingBuffer 3) [] exCalls)
    (reach_run 3 exCalls) 10).2.2.1

/-- C9 (monotonic flags): for every reachable state, every handler call and every
hash that is a key of the Hash Index before and after the call, the hash maps to
the same record, and each of `Confirmed = true`, `Milestone = "t"` and
`Reattached = true` is kept by the call if it held before. -/
theorem C9_flags_monotonic (size : Nat) (hsize : 0 < size) (s : State) (hs : Reachable size s)
    (c : Call) (h : String) (p p1 : Nat) (hb : mapGet s.txPointerMap h = some p)
    (ha : mapGet (step s c).1.txPointerMap h = some p1) :
    p1 = p ∧
    ((deref s.heap p).Confirmed = true → (deref (step s c).1.heap p1).Confirmed = true) ∧
    ((deref s.heap p).Milestone = "t" → (deref (step s c).1.heap p1).Milestone = "t") ∧
    ((deref s.heap p).Reattached = true → (deref (step s c).1.heap p1).Reattached = true) := by
  obtain ⟨log, hl⟩ := hs
  have I := hl.inv hsize
  have e := I.lookup_stable c h p p1 hb ha
  subst e
  have hv := I.valid p1 (mem_of_mem_cachedOf ((I.idx.pmSpec h p1).1 hb).1)
  have hr := recLe_step s c p1 hv
  exact ⟨rfl, hr.confirmed, hr.milestone, hr.reattached⟩

/-- Witness for C9: `T4` is confirmed in the example cache and stays confirmed
after a second confirmation with another time. -/
theorem C9_flags_monotonic_witness :
    (deref (step exStateConf (Call.confirmedTx (exTx "T4" "B2") 0 9 (some 2))).1.heap 3).Confirmed
      = true :=
  (C9_flags_monotonic 3 (by decide) exStateConf (reachable_run 3 exCallsConf)
    (Call.confirmedTx (exTx "T4" "B2") 0 9 (some 2)) "T4" 3 3 (by decide) (by decide)).2.1
    (by decide)

/-- C10 (confirmation update): in a reachable state, `onConfirmedTx` of a
transaction whose hash the Hash Index maps to the pointer `p` sets `Confirmed` to
true and `ConfTime` to `confTime * 1000` in `int64` arithmetic in the record `p`
designates and changes no other field; `p` is stored in the ring, every record of
a snapshot with that hash is this updated record, the pointers a snapshot walks
are the same as before, every other record is unchanged, and the ring with its
write cursor, the Hash Index and the Bundle Index are unchanged, whatever the
position of the transaction in its bundle and the ledger changes. -/
theorem C10_confirmed_update (size : Nat) (hsize : 0 < size) (s : State)
    (hs : Reachable size s) (iotaTx : Tx) (msIndex : Nat) (confTime : Int)
    (ledgerChanges : Option Nat) (p : Nat) (hp : mapGet s.txPointerMap iotaTx.Hash = some p) :
    mapGet (onConfirmedTx s iotaTx msIndex confTime ledgerChanges).1.txPointerMap iotaTx.Hash
      = some p ∧
    deref (onConfirmedTx s iotaTx msIndex confTime ledgerChanges).1.heap p =
      { deref s.heap p with Confirmed := true, ConfTime := wrapInt64 (confTime * 1000) } ∧
    p ∈ occupied (onConfirmedTx s iotaTx msIndex confTime ledgerChanges).1 ∧
    (∀ amount r, r ∈ recent (onConfirmedTx s iotaTx msIndex confTime ledgerChanges).1 amount →
      r.Hash = iotaTx.Hash →
      r = deref (onConfirmedTx s iotaTx msIndex confTime ledgerChanges).1.heap p) ∧
    (∀ amount, recentPtrs (onConfirmedTx s iotaTx msIndex confTime ledgerChanges).1 amount
      = recentPtrs s amount) ∧
    (∀ q, q ≠ p →
      deref (onConfirmedTx s iotaTx msIndex confTime ledgerChanges).1.heap q = deref s.heap q) ∧
    (onConfirmedTx s iotaTx msIndex confTime ledgerChanges).1.txRingBuffer = s.txRingBuffer ∧
    (onConfirmedTx s iotaTx msIndex confTime ledgerChanges).1.txPointerMap = s.txPointerMap ∧
    (onConfirmedTx s iotaTx msIndex confTime ledgerChanges).1.bundleTransactionsMap
      = s.bundleTransactionsMap := by
  obtain ⟨log, hl⟩ := hs
  have I := hl.inv hsize
  have I1 : Inv size (onConfirmedTx s iotaTx msIndex confTime ledgerChanges).1 log :=
    I.step (Call.confirmedTx iotaTx msIndex confTime ledgerChanges)
  have hpc := ((I.idx.pmSpec _ _).1 hp).1
  have hv : p < s.heap.length := I.valid p (mem_of_mem_cachedOf hpc)
  have hheap : (onConfirmedTx s iotaTx msIndex confTime ledgerChanges).1.heap =
      store (store s.heap p (fun r => { r with Confirmed := true })) p
        (fun r => { r with ConfTime := wrapInt64 (confTime * 1000) }) := by
    simp [onConfirmedTx, hp]
  have hpm : (onConfirmedTx s iotaTx msIndex confTime ledgerChanges).1.txPointerMap
      = s.txPointerMap := rfl
  have hring : (onConfirmedTx s iotaTx msIndex confTime ledgerChanges).1.txRingBuffer
      = s.txRingBuffer := rfl
  refine ⟨hp, ?_, (I1.mem_occupied p).2 hpc, ?_, fun _ => rfl, ?_, hring, hpm, rfl⟩
  · rw [hheap, deref_store_same _ _ _ (by rw [length_store]; exact hv),
      deref_store_same _ _ _ hv]
  · intro amount r hr hrh
    unfold recent at hr
    obtain ⟨q, hq1, hq2⟩ := List.mem_map.1 hr
    have hqc := I1.mem_recentPtrs amount q hq1
    have hq3 : mapGet (onConfirmedTx s iotaTx msIndex confTime ledgerChanges).1.txPointerMap
        iotaTx.Hash = some q := by
      refine (I1.idx.pmSpec _ _).2 ⟨hqc, ?_⟩
      simp only [hq2]
      exact hrh
    rw [hpm, hp] at hq3
    rw [← hq2, Option.some.inj hq3]
  · intro q hq
    rw [hheap, deref_store_ne _ _ _ _ hq, deref_store_ne _ _ _ _ hq]

/-- Witness for C10: confirmation of the cached `T4` in the example cache. -/
theorem C10_confirmed_update_witness :
    deref (onConfirmedTx exState (exTx "T4" "B2") 0 5 (some 1)).1.heap 3 =
      { deref exState.heap 3 with Confirmed := true, ConfTime := wrapInt64 (5 * 1000) } :=
  (C10_confirmed_update 3 (by decide) exState (reachable_run 3 exCalls) (exTx "T4" "B2") 0 5
    (some 1) 3 (by decide)).2.1

/-- C11 (stale confirmation): every call of `onConfirmedTx` emits exactly one
broadcast, the `update` event carrying the hash of the transaction and
`confTime * 1000` in `int64` arithmetic; and when the hash is not a key of the
Hash Index the call returns the state unchanged (heap, ring with its write
cursor, Hash Index and Bundle Index). -/
theorem C11_confirmed_absent (s : State) (iotaTx : Tx) (msIndex : Nat) (confTime : Int)
    (ledgerChanges : Option Nat) :
    (onConfirmedTx s iotaTx msIndex confTime ledgerChanges).2.filter Effect.isBroadcast =
      [Effect.update { Hash := iotaTx.Hash, ConfTime := wrapInt64 (confTime * 1000) }] ∧
    (mapGet s.txPointerMap iotaTx.Hash = none →
      (onConfirmedTx s iotaTx msIndex confTime ledgerChanges).1 = s) := by
  constructor
  · unfold onConfirmedTx
    simp only [List.filter_append]
    have h1 : ([Effect.update { Hash := iotaTx.Hash, ConfTime := wrapInt64 (confTime * 1000) }]
        : List Effect).filter Effect.isBroadcast =
        [Effect.update { Hash := iotaTx.Hash, ConfTime := wrapInt64 (confTime * 1000) }] := rfl
    rw [h1]
    split
    · cases ledgerChanges with
      | none => rfl
      | some n =>
        simp only
        split <;> rfl
    · rfl
  · intro h
    simp [onConfirmedTx, h]

/-- Witness for C11: `T1` was evicted from the example cache; its confirmation
leaves the state as it is and still emits the update. -/
theorem C11_confirmed_absent_witness :
    (onConfirmedTx exState (exTx "T1" "B1") 0 5 (some 1)).1 = exState ∧
    (onConfirmedTx exState (exTx "T1" "B1") 0 5 (some 1)).2.filter Effect.isBroadcast =
      [Effect.update { Hash := "T1", ConfTime := wrapInt64 (5 * 1000) }] :=
  ⟨(C11_confirmed_absent exState (exTx "T1" "B1") 0 5 (some 1)).2 (by decide),
   (C11_confirmed_absent exState (exTx "T1" "B1") 0 5 (some 1)).1⟩

/-- C13 (milestone broadcasts): `onNewMilestone` emits one `updateMilestone`
broadcast per transaction of the bundle, in the order of the bundle, the i-th
carrying the hash of the i-th transaction, milestone `"t"` and the batch
confirmation time; nothing else is emitted, and the emitted list is the same in
every state. -/
theorem C13_milestone_broadcasts (s : State) (bundle : Bundle) :
    (onNewMilestone s bundle).2 =
      bundle.transactions.map (fun tx => Effect.updateMilestone
        { Hash := tx.Hash, Milestone := "t",
          ConfTime := wrapInt64 (bundle.tail.Timestamp * 1000) }) ∧
    (onNewMilestone s bundle).2.length = bundle.transactions.length ∧
    (∀ e ∈ (onNewMilestone s bundle).2, e.isBroadcast = true) ∧
    (∀ s1 : State, (onNewMilestone s1 bundle).2 = (onNewMilestone s bundle).2) := by
  refine ⟨rfl, ?_, ?_, fun _ => rfl⟩
  · simp [onNewMilestone]
  · intro e he
    simp only [onNewMilestone, List.mem_map] at he
    obtain ⟨tx, -, rfl⟩ := he
    rfl

/-! ## The milestone and reattachment loops -/

theorem store_store (heap : List wsTransaction) (p : Nat) (f g : wsTransaction → wsTransaction) :
    store (store heap p f) p g = store heap p (fun r => g (f r)) := by
  by_cases hp : p < heap.length
  · have h1 := deref_store_same heap p f hp
    unfold store at h1 ⊢
    rw [h1, List.set_set]
  · have hle : heap.length ≤ p := Nat.le_of_not_lt hp
    unfold store
    rw [List.set_eq_of_length_le hle, List.set_eq_of_length_le hle,
      List.set_eq_of_length_le hle]

theorem markMilestone_idem (confTime : Int) (r : wsTransaction) :
    markMilestone confTime (markMilestone confTime r) = markMilestone confTime r := rfl

theorem length_milestoneLoop (pm : List (String × Nat)) (confTime : Int) (txs : List Tx)
    (heap : List wsTransaction) : (milestoneLoop pm confTime txs heap).length = heap.length :=
  (heapLe_milestoneLoop pm confTime txs heap).1

/-- The first loop of `onNewMilestone` rewrites exactly the allocated records that
the Hash Index designates for some transaction of the list. -/
theorem milestoneLoop_deref (pm : List (String × Nat)) (confTime : Int) (txs : List Tx)
    (heap : List wsTransaction) (q : Nat) :
    ((∃ tx ∈ txs, mapGet pm tx.Hash = some q) → q < heap.length →
      deref (milestoneLoop pm confTime txs heap) q = markMilestone confTime (deref heap q)) ∧
    ((¬ ∃ tx ∈ txs, mapGet pm tx.Hash = some q) →
      deref (milestoneLoop pm confTime txs heap) q = deref heap q) := by
  induction txs generalizing heap with
  | nil =>
    constructor
    · rintro ⟨tx, htx, -⟩
      cases htx
    · intro _
      rfl
  | cons tx rest ih =>
    unfold milestoneLoop
    cases hg : mapGet pm tx.Hash with
    | none =>
      simp only
      have hiff : (∃ t ∈ tx :: rest, mapGet pm t.Hash = some q) ↔
          (∃ t ∈ rest, mapGet pm t.Hash = some q) := by
        constructor
        · rintro ⟨t, ht, hq⟩
          rcases List.mem_cons.1 ht with h1 | h1
          · subst h1
            rw [hg] at hq
            cases hq
          · exact ⟨t, h1, hq⟩
        · rintro ⟨t, ht, hq⟩
          exact ⟨t, List.mem_cons_of_mem _ ht, hq⟩
      rw [hiff]
      exact ih heap
    | some w =>
      simp only
      rw [store_store, store_store]
      have hst : (fun r : wsTransaction =>
          ({ ({ ({ r with Confirmed := true } : wsTransaction) with Milestone := "t" }
            : wsTransaction) with ConfTime := confTime } : wsTransaction))
          = markMilestone confTime := rfl
      rw [hst]
      have hlen : (store heap w (markMilestone confTime)).length = heap.length :=
        length_store _ _ _
      obtain ⟨ih1, ih2⟩ := ih (store heap w (markMilestone confTime))
      by_cases hqw : q = w
      · subst hqw
        constructor
        · intro _ hq
          have hd : deref (store heap q (markMilestone confTime)) q
              = markMilestone confTime (deref heap q) := deref_store_same _ _ _ hq
          by_cases hex : ∃ t ∈ rest, mapGet pm t.Hash = some q
          · rw [ih1 hex (by rw [hlen]; exact hq), hd, markMilestone_idem]
          · rw [ih2 hex, hd]
        · intro hno
          exact absurd ⟨tx, List.mem_cons_self _ _, hg⟩ hno
      · have hd : deref (store heap w (markMilestone confTime)) q = deref heap q :=
          deref_store_ne _ _ _ _ hqw
        have hiff : (∃ t ∈ tx :: rest, mapGet pm t.Hash = some q) ↔
            (∃ t ∈ rest, mapGet pm t.Hash = some q) := by
          constructor
          · rintro ⟨t, ht, hq⟩
            rcases List.mem_cons.1 ht with h1 | h1
            · subst h1
              rw [hg] at hq
              exact absurd (Option.some.inj hq).symm hqw
            · exact ⟨t, h1, hq⟩
          · rintro ⟨t, ht, hq⟩
            exact ⟨t, List.mem_cons_of_mem _ ht, hq⟩
        rw [hiff]
        constructor
        · intro hex hq
          rw [ih1 hex (by rw [hlen]; exact hq), hd]
        · intro hno
          rw [ih2 hno, hd]

/-- C12 (milestone update): in a reachable state, after `onNewMilestone` every
record that the Hash Index holds under the hash of some transaction of the bundle
has `Confirmed = true`, `Milestone = "t"` and `ConfTime` equal to the tail
timestamp times 1000 in `int64` arithmetic, its other fields unchanged; every
record the Hash Index holds under another hash is unchanged, as is every record
that no transaction of the bundle designates; and the ring with its write cursor
and both indices are unchanged. -/
theorem C12_milestone_update (size : Nat) (hsize : 0 < size) (s : State)
    (hs : Reachable size s) (bundle : Bundle) :
    (∀ h p, mapGet s.txPointerMap h = some p →
      h ∈ bundle.transactions.map (fun tx => tx.Hash) →
      deref (onNewMilestone s bundle).1.heap p =
        { deref s.heap p with
          Confirmed := true, Milestone := "t",
          ConfTime := wrapInt64 (bundle.tail.Timestamp * 1000) }) ∧
    (∀ h p, mapGet s.txPointerMap h = some p →
      h ∉ bundle.transactions.map (fun tx => tx.Hash) →
      deref (onNewMilestone s bundle).1.heap p = deref s.heap p) ∧
    (∀ q, (¬ ∃ tx ∈ bundle.transactions, mapGet s.txPointerMap tx.Hash = some q) →
      deref (onNewMilestone s bundle).1.heap q = deref s.heap q) ∧
    (onNewMilestone s bundle).1.txRingBuffer = s.txRingBuffer ∧
    (onNewMilestone s bundle).1.txPointerMap = s.txPointerMap ∧
    (onNewMilestone s bundle).1.bundleTransactionsMap = s.bundleTransactionsMap := by
  obtain ⟨log, hl⟩ := hs
  have I := hl.inv hsize
  refine ⟨?_, ?_, ?_, rfl, rfl, rfl⟩
  · intro h p hp hmem
    obtain ⟨tx, htx, rfl⟩ := List.mem_map.1 hmem
    have hv := I.valid p (mem_of_mem_cachedOf ((I.idx.pmSpec _ _).1 hp).1)
    exact (milestoneLoop_deref _ _ _ _ p).1 ⟨tx, htx, hp⟩ hv
  · intro h p hp hmem
    refine (milestoneLoop_deref _ _ _ _ p).2 ?_
    rintro ⟨tx, htx, hq⟩
    have h1 := ((I.idx.pmSpec _ _).1 hp).2
    have h2 := ((I.idx.pmSpec _ _).1 hq).2
    have e : h = tx.Hash := h1.symm.trans h2
    exact hmem (e ▸ List.mem_map_of_mem (fun tx => tx.Hash) htx)
  · intro q hq
    exact (milestoneLoop_deref _ _ _ _ q).2 hq

/-- Witness for C12: with `T1` and `T2` cached, the milestone bundle `[T1, T2]`
with confirmation time 5000 marks the record of `T1` and of `T2`. -/
theorem C12_milestone_update_witness :
    wrapInt64 (exBundle.tail.Timestamp * 1000) = 5000 ∧
    deref (onNewMilestone exState2 exBundle).1.heap 0 =
      { deref exState2.heap 0 with
        Confirmed := true, Milestone := "t",
        ConfTime := wrapInt64 (exBundle.tail.Timestamp * 1000) } ∧
    deref (onNewMilestone exState2 exBundle).1.heap 1 =
      { deref exState2.heap 1 with
        Confirmed := true, Milestone := "t",
        ConfTime := wrapInt64 (exBundle.tail.Timestamp * 1000) } :=
  ⟨by decide,
   (C12_milestone_update 3 (by decide) exState2 (reachable_run 3 _) exBundle).1 "T1" 0
     (by decide) (by decide),
   (C12_milestone_update 3 (by decide) exState2 (reachable_run 3 _) exBundle).1 "T2" 1
     (by decide) (by decide)⟩

/-- The updates collected by the loop of `onReattachment`: one per member hash
found in the Hash Index, in iteration order. -/
theorem reattachLoop_updates (pm : List (String × Nat)) (ms : List String)
    (heap : List wsTransaction) (updates : List wsReattachment) :
    (reattachLoop pm ms heap updates).2 =
      updates ++ (ms.filter (fun h => (mapGet pm h).isSome)).map (fun h => { Hash := h }) := by
  induction ms generalizing heap updates with
  | nil => simp [reattachLoop]
  | cons h rest ih =>
    unfold reattachLoop
    cases hg : mapGet pm h with
    | none =>
      simp only
      rw [ih, List.filter_cons_of_neg (by simp [hg])]
    | some w =>
      simp only
      rw [ih, List.filter_cons_of_pos (by simp [hg]), List.map_cons, List.append_assoc]
      rfl

/-- The loop of `onReattachment` rewrites exactly the allocated records that the
Hash Index designates for some member hash. -/
theorem reattachLoop_deref (pm : List (String × Nat)) (ms : List String)
    (heap : List wsTransaction) (updates : List wsReattachment) (q : Nat) :
    ((∃ h ∈ ms, mapGet pm h = some q) → q < heap.length →
      deref (reattachLoop pm ms heap updates).1 q = markReattached (deref heap q)) ∧
    ((¬ ∃ h ∈ ms, mapGet pm h = some q) →
      deref (reattachLoop pm ms heap updates).1 q = deref heap q) := by
  induction ms generalizing heap updates with
  | nil =>
    constructor
    · rintro ⟨h, hh, -⟩
      cases hh
    · intro _
      rfl
  | cons m rest ih =>
    unfold reattachLoop
    cases hg : mapGet pm m with
    | none =>
      simp only
      have hiff : (∃ h ∈ m :: rest, mapGet pm h = some q) ↔
          (∃ h ∈ rest, mapGet pm h = some q) := by
        constructor
        · rintro ⟨t, ht, hq⟩
          rcases List.mem_cons.1 ht with h1 | h1
          · subst h1
            rw [hg] at hq
            cases hq
          · exact ⟨t, h1, hq⟩
        · rintro ⟨t, ht, hq⟩
          exact ⟨t, List.mem_cons_of_mem _ ht, hq⟩
      rw [hiff]
      exact ih heap updates
    | some w =>
      simp only
      have hst : (fun r : wsTransaction => ({ r with Reattached := true } : wsTransaction))
          = markReattached := rfl
      rw [hst]
      have hlen : (store heap w markReattached).length = heap.length := length_store _ _ _
      obtain ⟨ih1, ih2⟩ := ih (store heap w markReattached) (updates ++ [{ Hash := m }])
      by_cases hqw : q = w
      · subst hqw
        constructor
        · intro _ hq
          have hd : deref (store heap q markReattached) q = markReattached (deref heap q) :=
            deref_store_same _ _ _ hq
          by_cases hex : ∃ t ∈ rest, mapGet pm t = some q
          · rw [ih1 hex (by rw [hlen]; exact hq), hd]
            rfl
          · rw [ih2 hex, hd]
        · intro hno
          exact absurd ⟨m, List.mem_cons_self _ _, hg⟩ hno
      · have hd : deref (store heap w markReattached) q = deref heap q :=
          deref_store_ne _ _ _ _ hqw
        have hiff : (∃ h ∈ m :: rest, mapGet pm h = some q) ↔
            (∃ h ∈ rest, mapGet pm h = some q) := by
          constructor
          · rintro ⟨t, ht, hq⟩
            rcases List.mem_cons.1 ht with h1 | h1
            · subst h1
              rw [hg] at hq
              exact absurd (Option.some.inj hq).symm hqw
            · exact ⟨t, h1, hq⟩
          · rintro ⟨t, ht, hq⟩
            exact ⟨t, List.mem_cons_of_mem _ ht, hq⟩
        rw [hiff]
        constructor
        · intro hex hq
          rw [ih1 hex (by rw [hlen]; exact hq), hd]
        · intro hno
          rw [ih2 hno, hd]

/-- In a state satisfying the invariant, the pointer of a cached record is
designated by a member hash of bundle `b` exactly when the record has bundle `b`. -/
theorem Inv.member_iff_bundle {size : Nat} {s : State} {log : List Nat} (I : Inv size s log)
    (b h : String) (p : Nat) (hp : mapGet s.txPointerMap h = some p) :
    (∃ ms, mapGet s.bundleTransactionsMap b = some ms ∧ ∃ m ∈ ms, mapGet s.txPointerMap m = some p)
      ↔ (deref s.heap p).Bundle = b := by
  obtain ⟨hpc, hph⟩ := (I.idx.pmSpec _ _).1 hp
  constructor
  · rintro ⟨ms, hms, m, hm, hmp⟩
    obtain ⟨q, hq1, hq2, hq3⟩ := (I.idx.bmSpec b m).1 ⟨ms, hms, hm⟩
    obtain ⟨hp1, hp2⟩ := (I.idx.pmSpec _ _).1 hmp
    have e : p = q := I.idx.hash_inj hp1 hq1 (hp2.trans hq2.symm)
    rw [e]
    exact hq3
  · intro hb
    obtain ⟨ms, hms, hm⟩ := (I.idx.bmSpec b h).2 ⟨p, hpc, hph, hb⟩
    exact ⟨ms, hms, h, hm, hp⟩

/-- C14 (reattachment): in a reachable state, after `onReattachment b` a record
held by the Hash Index has `Reattached = true` exactly when it had it before or
its bundle is `b`; the records of bundle `b` change in that field only and all
other cached records not at all; the ring with its write cursor and both indices
are unchanged; the effects are `updateReattach` broadcasts for a list of pairwise
distinct hashes, which are exactly the hashes of the cached records of bundle `b`;
and nothing is emitted when `b` is not a key of the Bundle Index. -/
theorem C14_reattachment (size : Nat) (hsize : 0 < size) (s : State)
    (hs : Reachable size s) (b : String) :
    (∀ h p, mapGet s.txPointerMap h = some p →
      ((deref (onReattachment s b).1.heap p).Reattached = true ↔
        ((deref s.heap p).Reattached = true ∨ (deref s.heap p).Bundle = b))) ∧
    (∀ h p, mapGet s.txPointerMap h = some p → (deref s.heap p).Bundle = b →
      deref (onReattachment s b).1.heap p = { deref s.heap p with Reattached := true }) ∧
    (∀ h p, mapGet s.txPointerMap h = some p → (deref s.heap p).Bundle ≠ b →
      deref (onReattachment s b).1.heap p = deref s.heap p) ∧
    (onReattachment s b).1.txRingBuffer = s.txRingBuffer ∧
    (onReattachment s b).1.txPointerMap = s.txPointerMap ∧
    (onReattachment s b).1.bundleTransactionsMap = s.bundleTransactionsMap ∧
    (∃ hashes : List String,
      (onReattachment s b).2 = hashes.map (fun h => Effect.updateReattach { Hash := h }) ∧
      hashes.Nodup ∧
      ∀ h, h ∈ hashes ↔ ∃ p, mapGet s.txPointerMap h = some p ∧ (deref s.heap p).Bundle = b) ∧
    (mapGet s.bundleTransactionsMap b = none → (onReattachment s b).2 = []) := by
  obtain ⟨log, hl⟩ := hs
  have I := hl.inv hsize
  have hyes : ∀ h p, mapGet s.txPointerMap h = some p → (deref s.heap p).Bundle = b →
      deref (onReattachment s b).1.heap p = { deref s.heap p with Reattached := true } := by
    intro h p hp hb
    obtain ⟨ms, hms, hex⟩ := (I.member_iff_bundle b h p hp).2 hb
    have hv := I.valid p (mem_of_mem_cachedOf ((I.idx.pmSpec _ _).1 hp).1)
    simp only [onReattachment, hms]
    exact (reattachLoop_deref _ _ _ _ p).1 hex hv
  have hno : ∀ h p, mapGet s.txPointerMap h = some p → (deref s.heap p).Bundle ≠ b →
      deref (onReattachment s b).1.heap p = deref s.heap p := by
    intro h p hp hb
    cases hms : mapGet s.bundleTransactionsMap b with
    | none => simp [onReattachment, hms]
    | some ms =>
      simp only [onReattachment, hms]
      refine (reattachLoop_deref _ _ _ _ p).2 ?_
      intro hex
      exact hb ((I.member_iff_bundle b h p hp).1 ⟨ms, hms, hex⟩)
  refine ⟨?_, hyes, hno, rfl, rfl, rfl, ?_, ?_⟩
  · intro h p hp
    by_cases hb : (deref s.heap p).Bundle = b
    · rw [hyes h p hp hb]
      simp [hb]
    · rw [hno h p hp hb]
      simp [hb]
  · cases hms : mapGet s.bundleTransactionsMap b with
    | none =>
      refine ⟨[], by simp [onReattachment, hms], List.nodup_nil, ?_⟩
      intro h
      constructor
      · intro hh
        cases hh
      · rintro ⟨p, hp, hb⟩
        obtain ⟨ms, hms2, -⟩ := (I.member_iff_bundle b h p hp).2 hb
        rw [hms] at hms2
        cases hms2
    | some ms =>
      have hall : ms.filter (fun h => (mapGet s.txPointerMap h).isSome) = ms := by
        rw [List.filter_eq_self]
        intro h hh
        obtain ⟨p, hp1, hp2, -⟩ := (I.idx.bmSpec b h).1 ⟨ms, hms, hh⟩
        have := (I.idx.pmSpec h p).2 ⟨hp1, hp2⟩
        simp [this]
      refine ⟨ms, ?_, I.idx.bmNodup b ms hms, ?_⟩
      · simp only [onReattachment, hms]
        rw [reattachLoop_updates, hall, List.nil_append, List.map_map]
        rfl
      · intro h
        constructor
        · intro hh
          obtain ⟨p, hp1, hp2, hp3⟩ := (I.idx.bmSpec b h).1 ⟨ms, hms, hh⟩
          exact ⟨p, (I.idx.pmSpec h p).2 ⟨hp1, hp2⟩, hp3⟩
        · rintro ⟨p, hp, hb⟩
          obtain ⟨hp1, hp2⟩ := (I.idx.pmSpec _ _).1 hp
          obtain ⟨ms2, hms2, hm⟩ := (I.idx.bmSpec b h).2 ⟨p, hp1, hp2, hb⟩
          rw [hms] at hms2
          cases hms2
          exact hm
  · intro hms
    simp [onReattachment, hms]

/-- Witness for C14: `T1` of bundle `B` is cached; `onReattachment "B"` sets its
`Reattached` field and emits one update for its hash. -/
theorem C14_reattachment_witness :
    deref (onReattachment exStateB "B").1.heap 0 =
      { deref exStateB.heap 0 with Reattached := true } ∧
    (onReattachment exStateB "B").2 = [Effect.updateReattach { Hash := "T1" }] :=
  ⟨(C14_reattachment 3 (by decide) exStateB (reachable_run 3 _) "B").2.1 "T1" 0
     (by decide) (by decide),
   by decide⟩

/-- C15 (new record): in a reachable state, `onNewTx` of a transaction whose hash
is not in the Hash Index stores a record with the hash, address, value, tag and
bundle of the transaction, `Confirmed = false`, `Reattached = false`,
`ConfTime = 1111111111111` and `Milestone = "f"`; the Hash Index maps the hash to
it, the hash is in the member set of the transaction's bundle, the record is the
first element of every snapshot of amount at least 1 when the capacity is at
least 2, and the only effect is one `newTX` broadcast carrying that record. -/
theorem C15_new_record (size : Nat) (hsize : 0 < size) (s : State) (hs : Reachable size s)
    (iotaTx : Tx) (now : Int) (hnew : mapGet s.txPointerMap iotaTx.Hash = none) :
    mapGet (onNewTx s iotaTx now).1.txPointerMap iotaTx.Hash = some s.heap.length ∧
    deref (onNewTx s iotaTx now).1.heap s.heap.length = newRecord iotaTx now ∧
    ((newRecord iotaTx now).Hash = iotaTx.Hash ∧
      (newRecord iotaTx now).Address = iotaTx.Address ∧
      (newRecord iotaTx now).Value = iotaTx.Value ∧
      (newRecord iotaTx now).Tag = iotaTx.Tag ∧
      (newRecord iotaTx now).Bundle = iotaTx.Bundle ∧
      (newRecord iotaTx now).Confirmed = false ∧
      (newRecord iotaTx now).Reattached = false ∧
      (newRecord iotaTx now).ConfTime = 1111111111111 ∧
      (newRecord iotaTx now).Milestone = "f") ∧
    bmMem (onNewTx s iotaTx now).1.bundleTransactionsMap iotaTx.Bundle iotaTx.Hash ∧
    (2 ≤ size → ∀ n : Int, 1 ≤ n →
      (recent (onNewTx s iotaTx now).1 n).head? = some (newRecord iotaTx now)) ∧
    (onNewTx s iotaTx now).2 = [Effect.newTX (newRecord iotaTx now)] := by
  obtain ⟨log, hl⟩ := hs
  have I := hl.inv hsize
  have I1 := I.newTx iotaTx now hnew
  have hc1 := cachedOf_append size hsize log s.heap.length
  have hrec : deref (onNewTx s iotaTx now).1.heap s.heap.length = newRecord iotaTx now := by
    rw [onNewTx_new _ _ _ hnew]
    exact deref_append_length _ _
  have hmem : s.heap.length ∈ cachedOf size (log ++ [s.heap.length]) := by
    rw [hc1]
    exact List.mem_append_right _ (List.mem_singleton_self _)
  refine ⟨?_, hrec, ⟨rfl, rfl, rfl, rfl, rfl, rfl, rfl, rfl, rfl⟩, ?_, ?_, ?_⟩
  · refine (I1.idx.pmSpec _ _).2 ⟨hmem, ?_⟩
    simp only [hrec]
    rfl
  · refine (I1.idx.bmSpec _ _).2 ⟨s.heap.length, hmem, ?_, ?_⟩
    · simp only [hrec]; rfl
    · simp only [hrec]; rfl
  · intro h2 n hn
    obtain ⟨k, hk⟩ : ∃ k, n.toNat = k + 1 := ⟨n.toNat - 1, by omega⟩
    have hlen := length_cachedOf size (log ++ [s.heap.length])
    unfold recent
    rw [I1.recentPtrs_eq, hk]
    generalize hX : (if log.length < size then cachedOf size log else (cachedOf size log).tail)
      = X at hc1
    rw [hc1] at hlen ⊢
    split
    · rw [List.reverse_append, List.reverse_singleton, List.singleton_append, List.take_succ_cons,
        List.map_cons, List.head?_cons, hrec]
    · rename_i hge
      cases X with
      | nil =>
        simp only [List.nil_append, List.length_singleton] at hge
        omega
      | cons a t =>
        rw [List.cons_append, List.tail_cons, List.reverse_append, List.reverse_singleton,
          List.singleton_append, List.take_succ_cons, List.map_cons, List.head?_cons, hrec]
  · rw [onNewTx_new _ _ _ hnew]

/-- Witness for C15: `T6` is inserted into the example cache. -/
theorem C15_new_record_witness :
    mapGet (onNewTx exState (exTx "T6" "B3") 6).1.txPointerMap "T6" = some exState.heap.length ∧
    (recent (onNewTx exState (exTx "T6" "B3") 6).1 1).head? = some (newRecord (exTx "T6" "B3") 6) :=
  ⟨(C15_new_record 3 (by decide) exState (reachable_run 3 exCalls) (exTx "T6" "B3") 6
      (by decide)).1,
   (C15_new_record 3 (by decide) exState (reachable_run 3 exCalls) (exTx "T6" "B3") 6
      (by decide)).2.2.2.2.1 (by decide) 1 (by decide)⟩

theorem Inv.recent_nil {size : Nat} {s : State} {log : List Nat} (I : Inv size s log)
    (hempty : occupied s = []) (amount : Int) : recent s amount = [] := by
  have hc : cachedOf size log = [] := by
    have := I.perm_occupied
    rw [hempty] at this
    exact List.perm_nil.1 this.symm
  unfold recent
  rw [I.recentPtrs_eq, hc]
  simp

/-- C16 (snapshot query): `handleAPI` always answers with status 200 and returns
the state it was given; the body is the snapshot for the effective amount, which
is 15000 when the query value is empty or `Atoi` reports an error and the parsed
integer otherwise; and in a reachable state with no occupied slot the body is
empty. -/
theorem C16_handleAPI_total (Atoi : String → Option Int) (s : State) (amountStr : String) :
    (handleAPI Atoi s amountStr).1 = s ∧
    (handleAPI Atoi s amountStr).2.1 = 200 ∧
    (amountStr = "" → (handleAPI Atoi s amountStr).2.2.TXHistory = recent s 15000) ∧
    (Atoi amountStr = none → (handleAPI Atoi s amountStr).2.2.TXHistory = recent s 15000) ∧
    (∀ n, amountStr ≠ "" → Atoi amountStr = some n →
      (handleAPI Atoi s amountStr).2.2.TXHistory = recent s n) ∧
    (∀ size, 0 < size → Reachable size s → occupied s = [] →
      (handleAPI Atoi s amountStr).2.2.TXHistory = []) := by
  refine ⟨rfl, rfl, ?_, ?_, ?_, ?_⟩
  · intro h
    simp [handleAPI, h]
  · intro h
    simp [handleAPI, h]
  · intro n h1 h2
    simp [handleAPI, h1, h2]
  · intro size hsize hs hempty
    obtain ⟨log, hl⟩ := hs
    exact (hl.inv hsize).recent_nil hempty _

/-- Witness for C16: on the example cache the query value `"abc"` is rejected by
the parser and falls back to 15000, the value `"7"` is parsed, and the empty
cache answers with an empty body. -/
theorem C16_handleAPI_total_witness :
    (handleAPI exAtoi exState "abc").2.2.TXHistory = recent exState 15000 ∧
    (handleAPI exAtoi exState "7").2.2.TXHistory = recent exState 7 ∧
    (handleAPI exAtoi (initRingBuffer 3) "").2.2.TXHistory = [] :=
  ⟨(C16_handleAPI_total exAtoi exState "abc").2.2.2.1 (by decide),
   (C16_handleAPI_total exAtoi exState "7").2.2.2.2.1 7 (by decide) (by decide),
   (C16_handleAPI_total exAtoi (initRingBuffer 3) "").2.2.2.2.2 3 (by decide)
     ⟨[], Reach.init⟩ (by decide)⟩

/-! ## Milestone confirmation implies confirmation -/

theorem milestoneOk_store (heap : List wsTransaction) (p : Nat)
    (f : wsTransaction → wsTransaction) (hf : ∀ r, MilestoneOk r → MilestoneOk (f r))
    (h : ∀ q, q < heap.length → MilestoneOk (deref heap q)) :
    ∀ q, q < (store heap p f).length → MilestoneOk (deref (store heap p f) q) := by
  intro q hq
  rw [length_store] at hq
  by_cases hqp : q = p
  · subst hqp
    rw [deref_store_same _ _ _ hq]
    exact hf _ (h q hq)
  · rw [deref_store_ne _ _ _ _ hqp]
    exact h q hq

theorem milestoneOk_milestoneLoop (pm : List (String × Nat)) (confTime : Int) (txs : List Tx)
    (heap : List wsTransaction) (h : ∀ q, q < heap.length → MilestoneOk (deref heap q)) :
    ∀ q, q < (milestoneLoop pm confTime txs heap).length →
      MilestoneOk (deref (milestoneLoop pm confTime txs heap) q) := by
  induction txs generalizing heap with
  | nil => exact h
  | cons tx rest ih =>
    unfold milestoneLoop
    cases mapGet pm tx.Hash with
    | none => exact ih heap h
    | some w =>
      simp only
      apply ih
      rw [store_store, store_store]
      refine milestoneOk_store _ _ _ ?_ h
      intro r _ _
      rfl

theorem milestoneOk_reattachLoop (pm : List (String × Nat)) (ms : List String)
    (heap : List wsTransaction) (updates : List wsReattachment)
    (h : ∀ q, q < heap.length → MilestoneOk (deref heap q)) :
    ∀ q, q < (reattachLoop pm ms heap updates).1.length →
      MilestoneOk (deref (reattachLoop pm ms heap updates).1 q) := by
  induction ms generalizing heap updates with
  | nil => exact h
  | cons m rest ih =>
    unfold reattachLoop
    cases mapGet pm m with
    | none => exact ih heap updates h
    | some w =>
      simp only
      apply ih
      refine milestoneOk_store _ _ _ ?_ h
      intro r hr
      exact hr

theorem milestoneOk_step (s : State) (c : Call)
    (h : ∀ q, q < s.heap.length → MilestoneOk (deref s.heap q)) :
    ∀ q, q < (step s c).1.heap.length → MilestoneOk (deref (step s c).1.heap q) := by
  cases c with
  | newTx iotaTx now =>
    have key : ∀ q, q < (s.heap ++ [newRecord iotaTx now]).length →
        MilestoneOk (deref (s.heap ++ [newRecord iotaTx now]) q) := by
      intro q hq
      rw [List.length_append, List.length_singleton] at hq
      by_cases hlt : q < s.heap.length
      · rw [deref_append_lt _ _ _ hlt]
        exact h q hlt
      · have e : q = s.heap.length := by omega
        rw [e, deref_append_length]
        intro hm
        have hf : ("f" : String) = "t" := hm
        exact absurd hf (by decide)
    simp only [step]
    cases hg : mapGet s.txPointerMap iotaTx.Hash with
    | none =>
      rw [onNewTx_new _ _ _ hg]
      exact key
    | some p =>
      rw [onNewTx_dup _ _ _ _ hg]
      exact key
  | confirmedTx iotaTx msIndex confTime ledgerChanges =>
    simp only [step, onConfirmedTx]
    cases mapGet s.txPointerMap iotaTx.Hash with
    | none => exact h
    | some w =>
      simp only
      rw [store_store]
      refine milestoneOk_store _ _ _ ?_ h
      intro r _ _
      rfl
  | newMilestone bundle => exact milestoneOk_milestoneLoop _ _ _ _ h
  | reattachment bundleHash =>
    simp only [step, onReattachment]
    cases mapGet s.bundleTransactionsMap bundleHash with
    | none => exact h
    | some ms => exact milestoneOk_reattachLoop _ _ _ _ h
  | api Atoi amountStr => exact h

theorem Reach.milestoneOk {size : Nat} {s : State} {log : List Nat} (h : Reach size s log) :
    ∀ q, q < s.heap.length → MilestoneOk (deref s.heap q) := by
  induction h with
  | init =>
    intro q hq
    simp [initRingBuffer] at hq
  | step c _ ih => exact milestoneOk_step _ c ih

theorem Inv.newTx_lookup {size : Nat} {s : State} {log : List Nat} (I : Inv size s log)
    (iotaTx : Tx) (now : Int) (hnew : mapGet s.txPointerMap iotaTx.Hash = none) :
    mapGet (onNewTx s iotaTx now).1.txPointerMap iotaTx.Hash = some s.heap.length ∧
    deref (onNewTx s iotaTx now).1.heap s.heap.length = newRecord iotaTx now := by
  have hsize : 0 < size := Nat.lt_of_le_of_lt (Nat.zero_le _) I.pos
  have I1 := I.newTx iotaTx now hnew
  have hrec : deref (onNewTx s iotaTx now).1.heap s.heap.length = newRecord iotaTx now := by
    rw [onNewTx_new _ _ _ hnew]
    exact deref_append_length _ _
  refine ⟨(I1.idx.pmSpec _ _).2 ⟨?_, ?_⟩, hrec⟩
  · rw [cachedOf_append size hsize]
    exact List.mem_append_right _ (List.mem_singleton_self _)
  · simp only [hrec]
    rfl

/-- C18 (state machine): in every reachable state every record held by the Hash
Index, and every record in an occupied ring slot, that has `Milestone = "t"` also
has `Confirmed = true`; and the record that `onNewTx` stores for a new hash has
`Confirmed = false`, `Milestone = "f"` and `Reattached = false`. -/
theorem C18_milestone_implies_confirmed (size : Nat) (hsize : 0 < size) (s : State)
    (hs : Reachable size s) :
    (∀ h p, mapGet s.txPointerMap h = some p →
      (deref s.heap p).Milestone = "t" → (deref s.heap p).Confirmed = true) ∧
    (∀ p ∈ occupied s, (deref s.heap p).Milestone = "t" → (deref s.heap p).Confirmed = true) ∧
    (∀ (iotaTx : Tx) (now : Int), mapGet s.txPointerMap iotaTx.Hash = none →
      ∃ p, mapGet (onNewTx s iotaTx now).1.txPointerMap iotaTx.Hash = some p ∧
        (deref (onNewTx s iotaTx now).1.heap p).Confirmed = false ∧
        (deref (onNewTx s iotaTx now).1.heap p).Milestone = "f" ∧
        (deref (onNewTx s iotaTx now).1.heap p).Reattached = false) := by
  obtain ⟨log, hl⟩ := hs
  have I := hl.inv hsize
  have hm := hl.milestoneOk
  refine ⟨?_, ?_, ?_⟩
  · intro h p hp
    exact hm p (I.valid p (mem_of_mem_cachedOf ((I.idx.pmSpec _ _).1 hp).1))
  · intro p hp
    exact hm p (I.valid p (mem_of_mem_cachedOf ((I.mem_occupied p).1 hp)))
  · intro iotaTx now hnew
    obtain ⟨h1, h2⟩ := I.newTx_lookup iotaTx now hnew
    refine ⟨s.heap.length, h1, ?_, ?_, ?_⟩ <;> rw [h2] <;> rfl

/-- Witness for C18: after the milestone bundle `[T1, T2]` the record of `T1` is
milestone confirmed and confirmed. -/
theorem C18_milestone_implies_confirmed_witness :
    (deref exStateMs.heap 0).Milestone = "t" ∧ (deref exStateMs.heap 0).Confirmed = true :=
  ⟨by decide,
   (C18_milestone_implies_confirmed 3 (by decide) exStateMs (reachable_run 3 _)).1 "T1" 0
     (by decide) (by decide)⟩

/-- C19 (length of the snapshot walk): in a reachable state with `m` occupied
slots and capacity `C`, the walk of `handleAPI` returns `min (max amount 0) m`
records when `m < C` and `min (max amount 0) (C - 1)` records when `m = C`; in the
latter case the pointer in the slot at the write cursor is not among the pointers
collected and no returned record has the hash of the record it designates. -/
theorem C19_recent_length (size : Nat) (hsize : 0 < size) (s : State) (hs : Reachable size s)
    (amount : Int) :
    (occupied s).length ≤ size ∧
    ((occupied s).length < size →
      ((recent s amount).length : Int) = min (max amount 0) ((occupied s).length : Int)) ∧
    ((occupied s).length = size →
      ((recent s amount).length : Int) = min (max amount 0) ((size : Int) - 1)) ∧
    ((occupied s).length = size →
      ∃ po, s.txRingBuffer.Value = some po ∧ po ∈ occupied s ∧ po ∉ recentPtrs s amount ∧
        ∀ r ∈ recent s amount, r.Hash ≠ (deref s.heap po).Hash) := by
  obtain ⟨log, hl⟩ := hs
  have I := hl.inv hsize
  have hocc : (occupied s).length = (cachedOf size log).length := I.perm_occupied.length_eq
  have hclen := length_cachedOf size log
  have hlen : (recent s amount).length = (recentPtrs s amount).length := by
    simp [recent]
  have hptrs := I.recentPtrs_eq amount
  refine ⟨by omega, ?_, ?_, ?_⟩
  · intro hlt
    rw [if_pos (by omega)] at hptrs
    rw [hlen, hptrs, List.length_take, List.length_reverse, ← hocc]
    omega
  · intro hfull
    rw [if_neg (by omega)] at hptrs
    rw [hlen, hptrs, List.length_take, List.length_reverse, List.length_tail, ← hocc, hfull]
    omega
  · intro hfull
    rw [if_neg (by omega)] at hptrs
    cases hc : cachedOf size log with
    | nil =>
      rw [hc] at hocc
      simp only [List.length_nil] at hocc
      omega
    | cons po rest =>
      have hnd : (po :: rest).Nodup := hc ▸ I.cached_nodup
      have hpoc : po ∈ cachedOf size log := by rw [hc]; exact List.mem_cons_self _ _
      rw [hc, List.tail_cons] at hptrs
      have hnot : po ∉ recentPtrs s amount := by
        intro hmem
        rw [hptrs] at hmem
        exact (List.nodup_cons.1 hnd).1 (List.mem_reverse.1 (List.mem_of_mem_take hmem))
      refine ⟨po, ?_, (I.mem_occupied po).2 hpoc, hnot, ?_⟩
      · rw [I.value_cursor, if_neg (by omega), hc]
        rfl
      · intro r hr heq
        unfold recent at hr
        obtain ⟨q, hq1, hq2⟩ := List.mem_map.1 hr
        have hqc := I.mem_recentPtrs amount q hq1
        have hqh : (deref s.heap q).Hash = (deref s.heap po).Hash := by rw [hq2]; exact heq
        have e := I.idx.hash_inj hqc hpoc hqh
        exact hnot (e ▸ hq1)

/-- Witness for C19: the full example cache of capacity 3 answers amount 10 with
two records. -/
theorem C19_recent_length_witness :
    ((recent exState 10).length : Int) = min (max 10 0) ((3 : Int) - 1) :=
  (C19_recent_length 3 (by decide) exState (reachable_run 3 exCalls) 10).2.2.1 (by decide)

theorem Inv.reattach_hit {size : Nat} {s : State} {log : List Nat} (I : Inv size s log)
    (b h : String) (p : Nat) (hp : mapGet s.txPointerMap h = some p)
    (hb : (deref s.heap p).Bundle = b) :
    deref (onReattachment s b).1.heap p = markReattached (deref s.heap p) := by
  obtain ⟨ms, hms, hex⟩ := (I.member_iff_bundle b h p hp).2 hb
  have hv := I.valid p (mem_of_mem_cachedOf ((I.idx.pmSpec _ _).1 hp).1)
  simp only [onReattachment, hms]
  exact (reattachLoop_deref _ _ _ _ p).1 hex hv

/-- C20 (Bundle Index coverage): in every reachable state, for every record held
by the Hash Index its bundle is a key of the Bundle Index whose member set
contains its hash, and no other key has that hash in its member set; a hash is a
key of the Hash Index exactly when some member set contains it; keys of the
Bundle Index and members of a set do not repeat; and `onReattachment b` sets
`Reattached` in every cached record of bundle `b`. -/
theorem C20_bundle_coverage (size : Nat) (hsize : 0 < size) (s : State)
    (hs : Reachable size s) :
    (∀ h p, mapGet s.txPointerMap h = some p →
      (∃ ms, mapGet s.bundleTransactionsMap (deref s.heap p).Bundle = some ms ∧ h ∈ ms) ∧
      (∀ b ms, mapGet s.bundleTransactionsMap b = some ms → h ∈ ms →
        b = (deref s.heap p).Bundle)) ∧
    (∀ h, h ∈ mapKeys s.txPointerMap ↔
      ∃ b ms, mapGet s.bundleTransactionsMap b = some ms ∧ h ∈ ms) ∧
    (∀ b1 b2 ms1 ms2 h, mapGet s.bundleTransactionsMap b1 = some ms1 →
      mapGet s.bundleTransactionsMap b2 = some ms2 → h ∈ ms1 → h ∈ ms2 → b1 = b2) ∧
    (mapKeys s.bundleTransactionsMap).Nodup ∧
    (∀ b ms, mapGet s.bundleTransactionsMap b = some ms → ms.Nodup) ∧
    (∀ b h p, mapGet s.txPointerMap h = some p → (deref s.heap p).Bundle = b →
      (deref (onReattachment s b).1.heap p).Reattached = true) := by
  obtain ⟨log, hl⟩ := hs
  have I := hl.inv hsize
  have huniq : ∀ h p, mapGet s.txPointerMap h = some p →
      ∀ b ms, mapGet s.bundleTransactionsMap b = some ms → h ∈ ms →
        b = (deref s.heap p).Bundle := by
    intro h p hp b ms hms hm
    obtain ⟨hp1, hp2⟩ := (I.idx.pmSpec _ _).1 hp
    obtain ⟨q, hq1, hq2, hq3⟩ := (I.idx.bmSpec b h).1 ⟨ms, hms, hm⟩
    have e : p = q := I.idx.hash_inj hp1 hq1 (hp2.trans hq2.symm)
    rw [e]
    exact hq3.symm
  refine ⟨?_, ?_, ?_, I.idx.bmKeys, I.idx.bmNodup, ?_⟩
  · intro h p hp
    obtain ⟨hp1, hp2⟩ := (I.idx.pmSpec _ _).1 hp
    exact ⟨(I.idx.bmSpec _ h).2 ⟨p, hp1, hp2, rfl⟩, huniq h p hp⟩
  · intro h
    rw [mem_mapKeys_iff]
    constructor
    · rintro ⟨p, hp⟩
      obtain ⟨hp1, hp2⟩ := (I.idx.pmSpec _ _).1 hp
      obtain ⟨ms, hms, hm⟩ := (I.idx.bmSpec _ h).2 ⟨p, hp1, hp2, rfl⟩
      exact ⟨_, ms, hms, hm⟩
    · rintro ⟨b, ms, hms, hm⟩
      obtain ⟨q, hq1, hq2, -⟩ := (I.idx.bmSpec b h).1 ⟨ms, hms, hm⟩
      exact ⟨q, (I.idx.pmSpec _ _).2 ⟨hq1, hq2⟩⟩
  · intro b1 b2 ms1 ms2 h h1 h2 hm1 hm2
    obtain ⟨q, hq1, hq2, -⟩ := (I.idx.bmSpec b1 h).1 ⟨ms1, h1, hm1⟩
    have hp := (I.idx.pmSpec h q).2 ⟨hq1, hq2⟩
    rw [huniq h q hp b1 ms1 h1 hm1, huniq h q hp b2 ms2 h2 hm2]
  · intro b h p hp hb
    rw [I.reattach_hit b h p hp hb]
    rfl

/-- Witness for C20: in the example cache `T4` is in the member set of its bundle
`B2`, and `onReattachment "B2"` reaches its record. -/
theorem C20_bundle_coverage_witness :
    (∃ ms, mapGet exState.bundleTransactionsMap (deref exState.heap 3).Bundle = some ms ∧
      "T4" ∈ ms) ∧
    (deref (onReattachment exState "B2").1.heap 3).Reattached = true :=
  ⟨((C20_bundle_coverage 3 (by decide) exState (reachable_run 3 exCalls)).1 "T4" 3
      (by decide)).1,
   (C20_bundle_coverage 3 (by decide) exState (reachable_run 3 exCalls)).2.2.2.2.2 "B2" "T4" 3
      (by decide) (by decide)⟩

/-! ## Lock discipline -/

theorem lockRun_append (l : Locks) (ops1 ops2 : List Op) :
    lockRun l (ops1 ++ ops2) =
      match lockRun l ops1 with
      | some l1 => lockRun l1 ops2
      | none => none := by
  induction ops1 generalizing l with
  | nil => rfl
  | cons op ops ih =>
    simp only [List.cons_append, lockRun]
    cases lockStep l op with
    | none => rfl
    | some l1 => exact ih l1

theorem lockRun_access {α : Type} (xs : List α) :
    lockRun ⟨true, false⟩ (xs.map (fun _ => Op.access)) = some ⟨true, false⟩ := by
  induction xs with
  | nil => rfl
  | cons x xs ih => exact ih

theorem lockRun_broadcasts (es : List Effect) (h : ∀ e ∈ es, e.isBroadcast = true) :
    lockRun ⟨false, true⟩ (es.map Op.effect) = some ⟨false, true⟩ := by
  induction es with
  | nil => rfl
  | cons e es ih =>
    have he := h e (List.mem_cons_self _ _)
    simp only [List.map_cons, lockRun, lockStep, he]
    exact ih (fun e1 h1 => h e1 (List.mem_cons_of_mem _ h1))

theorem effectsOf_append (ops1 ops2 : List Op) :
    effectsOf (ops1 ++ ops2) = effectsOf ops1 ++ effectsOf ops2 := by
  induction ops1 with
  | nil => rfl
  | cons op ops ih =>
    cases op <;> simp [effectsOf, ih]

theorem effectsOf_access {α : Type} (xs : List α) :
    effectsOf (xs.map (fun _ => Op.access)) = [] := by
  induction xs with
  | nil => rfl
  | cons x xs ih => exact ih

theorem effectsOf_effects (es : List Effect) : effectsOf (es.map Op.effect) = es := by
  induction es with
  | nil => rfl
  | cons e es ih => simp [effectsOf, ih]

theorem lockRun_release (ops : List Op)
    (h : lockRun ⟨false, true⟩ ops = some ⟨false, true⟩) :
    lockRun ⟨true, false⟩ ([Op.unlockState, Op.lockBroadcast] ++ (ops ++ [Op.unlockBroadcast]))
      = some ⟨false, false⟩ := by
  show lockRun ⟨false, true⟩ (ops ++ [Op.unlockBroadcast]) = some ⟨false, false⟩
  rw [lockRun_append, h]
  rfl

/-- C17 (lock discipline): for each of `onNewTx`, `onConfirmedTx`,
`onNewMilestone` and `onReattachment` and for all arguments and states, the
sequence of lock operations, shared state accesses and effects of the handler
runs without violation from both mutexes free to both mutexes free: the shared
state is accessed only while the state lock is held, a mutex is acquired only
while the other one is not held, broadcasts are sent while the broadcast lock is
held and the state lock is not, and every acquired mutex is released, also on the
duplicate return of `onNewTx`; and the effects of the sequence are the effects of
the handler. -/
theorem C17_lock_discipline (s : State) :
    (∀ (iotaTx : Tx) (now : Int),
      lockRun ⟨false, false⟩ (onNewTxOps s iotaTx now) = some ⟨false, false⟩ ∧
      effectsOf (onNewTxOps s iotaTx now) = (onNewTx s iotaTx now).2) ∧
    (∀ (iotaTx : Tx) (msIndex : Nat) (confTime : Int) (ledgerChanges : Option Nat),
      lockRun ⟨false, false⟩ (onConfirmedTxOps iotaTx confTime ledgerChanges)
        = some ⟨false, false⟩ ∧
      effectsOf (onConfirmedTxOps iotaTx confTime ledgerChanges)
        = (onConfirmedTx s iotaTx msIndex confTime ledgerChanges).2) ∧
    (∀ bundle : Bundle,
      lockRun ⟨false, false⟩ (onNewMilestoneOps bundle) = some ⟨false, false⟩ ∧
      effectsOf (onNewMilestoneOps bundle) = (onNewMilestone s bundle).2) ∧
    (∀ bundleHash : String,
      lockRun ⟨false, false⟩ (onReattachmentOps s bundleHash) = some ⟨false, false⟩ ∧
      effectsOf (onReattachmentOps s bundleHash) = (onReattachment s bundleHash).2) := by
  refine ⟨?_, ?_, ?_, ?_⟩
  · intro iotaTx now
    unfold onNewTxOps
    cases hg : mapGet s.txPointerMap iotaTx.Hash with
    | some p =>
      rw [onNewTx_dup _ _ _ _ hg]
      exact ⟨rfl, rfl⟩
    | none =>
      rw [onNewTx_new _ _ _ hg]
      cases s.txRingBuffer.Value with
      | none => exact ⟨rfl, rfl⟩
      | some oldTx => exact ⟨rfl, rfl⟩
  · intro iotaTx msIndex confTime ledgerChanges
    unfold onConfirmedTxOps onConfirmedTx
    by_cases h0 : iotaTx.CurrentIndex = 0
    · cases ledgerChanges with
      | none =>
        simp only [h0, if_true]
        exact ⟨rfl, rfl⟩
      | some n =>
        by_cases hn : n > 0
        · simp only [h0, if_true, hn]
          exact ⟨rfl, rfl⟩
        · simp only [h0, if_true, hn, if_false]
          exact ⟨rfl, rfl⟩
    · simp only [h0, if_false]
      exact ⟨rfl, rfl⟩
  · intro bundle
    unfold onNewMilestoneOps onNewMilestone
    constructor
    · have hb : ∀ e ∈ bundle.transactions.map (fun tx => Effect.updateMilestone
          { Hash := tx.Hash, Milestone := "t",
            ConfTime := wrapInt64 (bundle.tail.Timestamp * 1000) }),
          e.isBroadcast = true := by
        intro e he
        obtain ⟨tx, -, rfl⟩ := List.mem_map.1 he
        rfl
      have h2 := lockRun_broadcasts _ hb
      rw [List.map_map] at h2
      simp only [List.append_assoc]
      show lockRun ⟨true, false⟩ (bundle.transactions.map (fun _ => Op.access) ++ _) = _
      rw [lockRun_append, lockRun_access]
      exact lockRun_release _ h2
    · simp only [effectsOf_append, effectsOf_access]
      have h3 := effectsOf_effects (bundle.transactions.map (fun tx => Effect.updateMilestone
          { Hash := tx.Hash, Milestone := "t",
            ConfTime := wrapInt64 (bundle.tail.Timestamp * 1000) }))
      rw [List.map_map] at h3
      erw [h3]
      simp [effectsOf]
  · intro bundleHash
    unfold onReattachmentOps onReattachment
    cases hg : mapGet s.bundleTransactionsMap bundleHash with
    | none => exact ⟨rfl, rfl⟩
    | some members =>
      simp only
      constructor
      · have hb : ∀ e ∈ (reattachLoop s.txPointerMap members s.heap []).2.map
            Effect.updateReattach, e.isBroadcast = true := by
          intro e he
          obtain ⟨u, -, rfl⟩ := List.mem_map.1 he
          rfl
        have h2 := lockRun_broadcasts _ hb
        rw [List.map_map] at h2
        simp only [List.append_assoc]
        show lockRun ⟨true, false⟩ (members.map (fun _ => Op.access) ++ _) = _
        rw [lockRun_append, lockRun_access]
        exact lockRun_release _ h2
      · simp only [effectsOf_append, effectsOf_access]
        have h3 := effectsOf_effects ((reattachLoop s.txPointerMap members s.heap []).2.map
          Effect.updateReattach)
        rw [List.map_map] at h3
        erw [h3]
        simp [effectsOf]

/-- The discipline is not vacuous: an access without the state lock, acquiring the
broadcast lock under the state lock, broadcasting under the state lock, and
returning with a mutex held are all rejected. -/
theorem lockRun_rejects :
    lockRun ⟨false, false⟩ [Op.access] = none ∧
    lockRun ⟨false, false⟩ [Op.lockState, Op.lockBroadcast] = none ∧
    lockRun ⟨false, false⟩ [Op.lockBroadcast, Op.lockState] = none ∧
    lockRun ⟨false, false⟩
      [Op.lockState, Op.effect (Effect.updateReattach { Hash := "T1" })] = none ∧
    lockRun ⟨false, false⟩ [Op.effect (Effect.updateReattach { Hash := "T1" })] = none ∧
    lockRun ⟨false, false⟩ [Op.lockState, Op.access] ≠ some ⟨false, false⟩ := by
  decide

end Monitor
